import Mathlib

/-!
# CipherSync: a verification development of `main.go`

`main.go` walks a directory tree, selects files by suffix and feeds them to a pool of
workers; each worker seals a file with AES-GCM (`encryptFile`) or opens it again
(`decryptFile`), writes the result next to the input and removes the input.

The program is embedded as pure functions over an explicit `World`:

* the file store is a function from paths to contents;
* the random source is the stream of bytes it will still deliver;
* every call into the operating system or into the cipher is recorded in a trace,
  so that "this step was never executed" is a statement about the trace;
* the lines written to standard output are collected in order.

The parts of the Go standard library the program calls are not part of the repository.
The cryptographic ones (`sha256.Sum256`, the AEAD returned by `cipher.NewGCM`) are
parameters collected in `Env`, together with the failures the operating system is going to
report; their documented contracts are the hypotheses `Env.Lawful`.  `filepath.Walk`,
`ioutil.ReadFile`, `ioutil.WriteFile`, `os.Remove`, `io.ReadFull`, `aes.NewCipher`,
`strings.HasSuffix` and `strings.TrimSuffix` are modelled after their documentation.

Go strings are byte strings.  Paths and the passphrase are modelled by Lean strings; the
suffixes the program tests (`.enc`, `.txt`, `.md`) are ASCII, for which testing the suffix on
characters and on UTF-8 bytes agree.
-/

namespace CipherSync

/-! ## Data model -/

/-- A byte slice. -/
abbrev Bytes := List UInt8

/-- The `error` values the program can produce or pass on. -/
inductive Error
  /-- The error of `ioutil.ReadFile`. -/
  | read (path : String)
  /-- The `aes.KeySizeError` of `aes.NewCipher`. -/
  | keySize (n : Nat)
  /-- The error of `io.ReadFull(rand.Reader, nonce)`. -/
  | entropy
  /-- The error built by `fmt.Errorf("ciphertext too short")`. -/
  | tooShort
  /-- The error of `gcm.Open`: "cipher: message authentication failed". -/
  | auth
  /-- The error of `ioutil.WriteFile`. -/
  | write (path : String)
  /-- The error of `os.Remove`. -/
  | remove (path : String)
  /-- The error `filepath.Walk` hands to its callback for a path it cannot access. -/
  | access (path : String)
  deriving DecidableEq, Repr

/-- One call into the operating system or the cipher, with whether it succeeded. -/
inductive Event
  | readFile (path : String) (ok : Bool)
  | randRead (ok : Bool)
  | sealCall
  | openCall (ok : Bool)
  | writeFile (path : String) (ok : Bool)
  | remove (path : String) (ok : Bool)
  deriving DecidableEq, Repr

/-- A line on standard output. -/
inductive Line
  /-- The line "Error: The key flag is required." -/
  | keyRequired
  /-- The line "Error accessing path ...". -/
  | accessError (path : String) (err : Error)
  /-- The line "Failed to process file ...". -/
  | failed (path : String) (err : Error)
  /-- The line "Successfully processed file: ...". -/
  | succeeded (path : String)
  /-- The line "Processing complete." -/
  | complete
  deriving DecidableEq, Repr

/-- The value of `cipher.AEAD` the program uses: `gcm.NonceSize()`, `gcm.Overhead()` and the
two transforms.  `sealRaw nonce plaintext additionalData` is ciphertext followed by tag;
`openRaw nonce sealed additionalData` is `none` when authentication fails. -/
structure AEAD where
  NonceSize : Nat
  Overhead : Nat
  sealRaw : Bytes → Bytes → Bytes → Bytes
  openRaw : Bytes → Bytes → Bytes → Option Bytes

/-- The method `Seal(dst, nonce, plaintext, additionalData)`: the sealed payload is appended to
`dst`. -/
def AEAD.Seal (gcm : AEAD) (dst nonce plaintext additionalData : Bytes) : Bytes :=
  dst ++ gcm.sealRaw nonce plaintext additionalData

/-- The method `Open(dst, nonce, ciphertext, additionalData)`: the plaintext is appended to
`dst`, or authentication fails. -/
def AEAD.Open (gcm : AEAD) (dst nonce ciphertext additionalData : Bytes) : Except Error Bytes :=
  match gcm.openRaw nonce ciphertext additionalData with
  | some plaintext => .ok (dst ++ plaintext)
  | none => .error .auth

/-- How a call of `ioutil.WriteFile` that reports an error leaves the file: the file could not
be opened (nothing changes), or it was created or truncated and only the first `n` bytes
arrived. -/
inductive WriteFault
  | openFails
  | shortWrite (n : Nat)
  deriving DecidableEq, Repr

/-- What surrounds the program: the library functions it calls and the failures the operating
system is going to report for each path. -/
structure Env where
  /-- The function `sha256.Sum256`. -/
  sum256 : Bytes → Bytes
  /-- The AEAD `cipher.NewGCM` builds over the AES block cipher of a key. -/
  gcm : Bytes → AEAD
  /-- Reading this path fails even when the file exists. -/
  readFails : String → Bool
  /-- Writing this path fails, in the given way. -/
  writeFault : String → Option WriteFault
  /-- Removing this path fails even when the file exists. -/
  removeFails : String → Bool

/-- The state the program acts on. -/
structure World where
  /-- The content of every existing file. -/
  files : String → Option Bytes
  /-- The bytes `rand.Reader` will still deliver. -/
  entropy : Bytes
  /-- The calls made so far, oldest first. -/
  trace : List Event
  /-- The lines printed so far, oldest first. -/
  stdout : List Line

/-- The file store with one path rebound. -/
def setFile (files : String → Option Bytes) (path : String) (content : Option Bytes) :
    String → Option Bytes :=
  fun q => if q = path then content else files q

/-- Record a call. -/
def World.log (w : World) (e : Event) : World :=
  { w with trace := w.trace ++ [e] }

/-- Print a line. -/
def World.print (w : World) (l : Line) : World :=
  { w with stdout := w.stdout ++ [l] }

/-! ## The library calls -/

/-- The function `strings.HasSuffix`. -/
def HasSuffix (s suffix : String) : Bool :=
  suffix.data.isSuffixOf s.data

/-- The function `strings.TrimSuffix`: `s` without the trailing `suffix`, or `s` itself. -/
def TrimSuffix (s suffix : String) : String :=
  if HasSuffix s suffix then ⟨s.data.take (s.data.length - suffix.data.length)⟩ else s

/-- The conversion `[]byte(key)`. -/
def bytesOf (s : String) : Bytes :=
  s.data.flatMap String.utf8EncodeChar

/-- The function `ioutil.ReadFile`. -/
def ReadFile (env : Env) (w : World) (path : String) : Except Error Bytes × World :=
  match w.files path, env.readFails path with
  | some data, false => (.ok data, w.log (.readFile path true))
  | _, _ => (.error (.read path), w.log (.readFile path false))

/-- The function `ioutil.WriteFile`: the file is created or truncated, then written. -/
def WriteFile (env : Env) (w : World) (path : String) (data : Bytes) : Option Error × World :=
  match env.writeFault path with
  | none =>
    (none, { w with files := setFile w.files path (some data) }.log (.writeFile path true))
  | some .openFails =>
    (some (.write path), w.log (.writeFile path false))
  | some (.shortWrite n) =>
    (some (.write path),
      { w with files := setFile w.files path (some (data.take n)) }.log (.writeFile path false))

/-- The function `os.Remove`. -/
def Remove (env : Env) (w : World) (path : String) : Option Error × World :=
  match w.files path, env.removeFails path with
  | some _, false =>
    (none, { w with files := setFile w.files path none }.log (.remove path true))
  | _, _ => (some (.remove path), w.log (.remove path false))

/-- The call `io.ReadFull(rand.Reader, buf)` with `len(buf) = n`: exactly `n` bytes or an
error. -/
def ReadFull (w : World) (n : Nat) : Except Error Bytes × World :=
  if n ≤ w.entropy.length then
    (.ok (w.entropy.take n), { w with entropy := w.entropy.drop n }.log (.randRead true))
  else
    (.error .entropy, { w with entropy := [] }.log (.randRead false))

/-- The function `aes.NewCipher`: only keys of 16, 24 or 32 bytes are accepted.  The block
cipher is represented by its key. -/
def NewCipher (key : Bytes) : Except Error Bytes :=
  if key.length = 16 ∨ key.length = 24 ∨ key.length = 32 then .ok key
  else .error (.keySize key.length)

/-- The function `cipher.NewGCM`; it fails only for block sizes other than 16, which AES does
not have. -/
def NewGCM (env : Env) (block : Bytes) : Except Error AEAD :=
  .ok (env.gcm block)

/-! ## The program -/

/-- The function `createKeyHash` of `main.go`. -/
def createKeyHash (env : Env) (key : String) : Bytes :=
  let hash := env.sum256 (bytesOf key)
  hash

/-- The function `encryptFile` of `main.go`. -/
def encryptFile (env : Env) (w : World) (path : String) (key : Bytes) : Option Error × World :=
  match ReadFile env w path with
  | (.error err, w) => (some err, w)
  | (.ok plaintext, w) =>
    match NewCipher key with
    | .error err => (some err, w)
    | .ok block =>
      match NewGCM env block with
      | .error err => (some err, w)
      | .ok gcm =>
        match ReadFull w gcm.NonceSize with
        | (.error err, w) => (some err, w)
        | (.ok nonce, w) =>
          let ciphertext := gcm.Seal nonce nonce plaintext []
          let w := w.log .sealCall
          match WriteFile env w (path ++ ".enc") ciphertext with
          | (some err, w) => (some err, w)
          | (none, w) => Remove env w path

/-- The function `decryptFile` of `main.go`. -/
def decryptFile (env : Env) (w : World) (path : String) (key : Bytes) : Option Error × World :=
  match ReadFile env w path with
  | (.error err, w) => (some err, w)
  | (.ok ciphertext, w) =>
    match NewCipher key with
    | .error err => (some err, w)
    | .ok block =>
      match NewGCM env block with
      | .error err => (some err, w)
      | .ok gcm =>
        let nonceSize := gcm.NonceSize
        if ciphertext.length < nonceSize then (some .tooShort, w)
        else
          let nonce := ciphertext.take nonceSize
          let ciphertext := ciphertext.drop nonceSize
          match gcm.Open [] nonce ciphertext [] with
          | .error err => (some err, w.log (.openCall false))
          | .ok plaintext =>
            let w := w.log (.openCall true)
            let originalPath := TrimSuffix path ".enc"
            match WriteFile env w originalPath plaintext with
            | (some err, w) => (some err, w)
            | (none, w) => Remove env w path

/-- The loop of `worker`: one codec call and one printed line for each path received. -/
def workerLoop (env : Env) (key : Bytes) (decrypt : Bool) : List String → World → World
  | [], w => w
  | path :: jobs, w =>
    let r := if decrypt then decryptFile env w path key else encryptFile env w path key
    let w := match r.1 with
      | some err => r.2.print (.failed path err)
      | none => r.2.print (.succeeded path)
    workerLoop env key decrypt jobs w

/-- The function `worker` of `main.go`, run on the sequence of paths it receives from the
channel. -/
def worker (env : Env) (jobs : List String) (secret : String) (decrypt : Bool) (w : World) :
    World :=
  let key := createKeyHash env secret
  workerLoop env key decrypt jobs w

/-! ## The producer -/

/-- A directory tree as `filepath.Walk` meets it.  Every entry carries the path `Walk` passes
to the callback for it; the entries of a directory are in the order of its listing. -/
inductive Entry
  /-- An entry `os.Lstat` describes as something other than a directory. -/
  | file (path : String)
  /-- A directory with its listing. -/
  | dir (path : String) (names : List Entry)
  /-- A directory whose listing cannot be read. -/
  | unlistable (path : String)
  /-- A path for which `os.Lstat` fails. -/
  | missing (path : String)
  deriving Repr

/-- The value of `info.IsDir()` for an entry. -/
def Entry.IsDir : Entry → Bool
  | .dir _ _ => true
  | .unlistable _ => true
  | _ => false

/-- What a `filepath.WalkFunc` returns: `nil`, `filepath.SkipDir`, or another error. -/
inductive WalkResult
  | proceed
  | skipDir
  | stop (err : Error)
  deriving DecidableEq, Repr

/-- A `filepath.WalkFunc` acting on a state: the path, `info.IsDir()`, the error `Walk` met. -/
abbrev WalkFunc (σ : Type) := String → Bool → Option Error → σ → WalkResult × σ

/-- The recursion of `filepath.Walk`: the callback is called for the entry, then for the
entries of a directory in order; an error other than `SkipDir` ends the walk. -/
def walk {σ : Type} (fn : WalkFunc σ) : Entry → σ → WalkResult × σ
  | .file p, s => fn p false none s
  | .missing p, s => fn p false (some (.access p)) s
  | .unlistable p, s => fn p true (some (.access p)) s
  | .dir p names, s =>
    match fn p true none s with
    | (.proceed, s) => walkNames fn names s
    | (r, s) => (r, s)
where
  /-- The loop of `walk` over the names of a directory. -/
  walkNames {σ : Type} (fn : WalkFunc σ) : List Entry → σ → WalkResult × σ
    | [], s => (.proceed, s)
    | .missing p :: rest, s =>
      match fn p false (some (.access p)) s with
      | (.stop err, s) => (.stop err, s)
      | (_, s) => walkNames fn rest s
    | e :: rest, s =>
      match walk fn e s with
      | (.proceed, s) => walkNames fn rest s
      | (.skipDir, s) => if e.IsDir then walkNames fn rest s else (.skipDir, s)
      | (.stop err, s) => (.stop err, s)

/-- The function `filepath.Walk`: `SkipDir` from the root is not an error. -/
def Walk {σ : Type} (fn : WalkFunc σ) (root : Entry) (s : σ) : Option Error × σ :=
  match walk fn root s with
  | (.stop err, s) => (some err, s)
  | (_, s) => (none, s)

/-- The channel `jobs` seen from the producer, and the lines it prints. -/
structure Queue where
  /-- The paths sent so far, oldest first. -/
  sent : List String
  /-- Whether `close(jobs)` has run. -/
  closed : Bool
  /-- The lines printed by the producer. -/
  printed : List Line
  deriving DecidableEq, Repr

/-- The statement `jobs <- path`. -/
def Queue.send (q : Queue) (path : String) : Queue :=
  { q with sent := q.sent ++ [path] }

/-- The callback `main` passes to `filepath.Walk`. -/
def walkFn (decrypt : Bool) : WalkFunc Queue :=
  fun path isDir err q =>
    match err with
    | some err => (.stop err, { q with printed := q.printed ++ [.accessError path err] })
    | none =>
      if !isDir then
        if decrypt then
          if HasSuffix path ".enc" then (.proceed, q.send path) else (.proceed, q)
        else
          if HasSuffix path ".txt" || HasSuffix path ".md" then (.proceed, q.send path)
          else (.proceed, q)
      else (.proceed, q)

/-- The producer goroutine of `main`: walk, then close the channel. -/
def producer (dir : Entry) (decrypt : Bool) : Queue :=
  let q := (Walk (walkFn decrypt) dir ⟨[], false, []⟩).2
  { q with closed := true }

/-- The function `main` under the schedule in which every path is handled as soon as it is
sent on the unbuffered channel, in the order in which a single worker meets them, so that
the lines of the worker come in walk order and the line of an access error, which ends the
walk, comes after them.  The result is the exit status and the final world.  Without a
worker nothing receives from the channel: `wg.Wait()` returns at once and the program ends
before the producer has sent or printed anything. -/
def main (env : Env) (dir : Entry) (secret : String) (decrypt : Bool) (workers : Int)
    (w : World) : Nat × World :=
  if secret = "" then (1, w.print .keyRequired)
  else if 0 < workers then
    let q := producer dir decrypt
    let w := worker env q.sent secret decrypt w
    let w := { w with stdout := w.stdout ++ q.printed }
    (0, w.print .complete)
  else (0, w.print .complete)

/-! ## Vocabulary of the specification -/

/-- The keys `aes.NewCipher` accepts. -/
def ValidKey (key : Bytes) : Prop :=
  key.length = 16 ∨ key.length = 24 ∨ key.length = 32

instance (key : Bytes) : Decidable (ValidKey key) :=
  inferInstanceAs (Decidable (key.length = 16 ∨ key.length = 24 ∨ key.length = 32))

/-- The documented contracts of the cryptographic library: `Sum256` returns 32 bytes; for
a key `aes.NewCipher` accepts, `Seal` adds `Overhead()` bytes to the plaintext, and `Open`
with the nonce used by `Seal` returns the plaintext. -/
structure Env.Lawful (env : Env) : Prop where
  sum256_length : ∀ m, (env.sum256 m).length = 32
  seal_length : ∀ key nonce plaintext, ValidKey key →
    ((env.gcm key).sealRaw nonce plaintext []).length = plaintext.length + (env.gcm key).Overhead
  open_seal : ∀ key nonce plaintext, ValidKey key → nonce.length = (env.gcm key).NonceSize →
    (env.gcm key).openRaw nonce ((env.gcm key).sealRaw nonce plaintext []) [] = some plaintext

/-- The operating system reports no failure of its own: a read or a delete fails only for a
file that does not exist, a write never. -/
structure Env.NoFaults (env : Env) : Prop where
  read : ∀ p, env.readFails p = false
  write : ∀ p, env.writeFault p = none
  remove : ∀ p, env.removeFails p = false

/-- The selection rule of the specification: `.txt` or `.md` in encrypt mode, `.enc` in
decrypt mode. -/
def selects (decrypt : Bool) (path : String) : Bool :=
  if decrypt then HasSuffix path ".enc" else HasSuffix path ".txt" || HasSuffix path ".md"

/-- The files the codec reads, writes or deletes for a path: the path itself and the output
path derived from it. -/
def footprint (decrypt : Bool) (path : String) : List String :=
  if decrypt then [path, TrimSuffix path ".enc"] else [path, path ++ ".enc"]

/-- The codec call the worker makes for a path. -/
def codec (env : Env) (key : Bytes) (decrypt : Bool) (w : World) (path : String) :
    Option Error × World :=
  if decrypt then decryptFile env w path key else encryptFile env w path key

/-- One turn of the loop of `worker`: the codec call and the line printed for its outcome. -/
def handle (env : Env) (key : Bytes) (decrypt : Bool) (w : World) (path : String) : World :=
  match (codec env key decrypt w path).1 with
  | some err => (codec env key decrypt w path).2.print (.failed path err)
  | none => (codec env key decrypt w path).2.print (.succeeded path)

/-- The blob opens to this plaintext: it is long enough to hold a nonce, and the payload
after the nonce authenticates (the transform of `decryptFile`). -/
def Opens (gcm : AEAD) (blob plaintext : Bytes) : Prop :=
  ¬ blob.length < gcm.NonceSize ∧
    gcm.Open [] (blob.take gcm.NonceSize) (blob.drop gcm.NonceSize) [] = .ok plaintext

/-- The plaintext `decryptFile` recovers from the content of a file, if any. -/
def plainOf (gcm : AEAD) (content : Option Bytes) : Option Bytes :=
  match content with
  | none => none
  | some blob =>
    if blob.length < gcm.NonceSize then none
    else gcm.openRaw (blob.take gcm.NonceSize) (blob.drop gcm.NonceSize) []

/-- One step of the walk, in the order `filepath.Walk` calls back. -/
inductive Visit
  | file (path : String)
  | dir (path : String)
  | failure (path : String)
  deriving DecidableEq, Repr

/-- The path of a visit. -/
def Visit.path : Visit → String
  | .file p => p
  | .dir p => p
  | .failure p => p

/-- Whether the visit is an access failure. -/
def Visit.isFailure : Visit → Bool
  | .failure _ => true
  | _ => false

/-- The path a visit contributes to the queue in the given mode, if any. -/
def Visit.selected (decrypt : Bool) : Visit → Option String
  | .file p => if selects decrypt p then some p else none
  | _ => none

/-- The entries of a tree in walk order: an entry before its descendants, the names of a
directory in the order of the listing; nothing is known below a failure. -/
def Entry.visits : Entry → List Visit
  | .file p => [.file p]
  | .dir p names => .dir p :: visitsOf names
  | .unlistable p => [.failure p]
  | .missing p => [.failure p]
where
  /-- The visits of a list of entries, one entry after the other. -/
  visitsOf : List Entry → List Visit
    | [] => []
    | e :: es => e.visits ++ visitsOf es

/-- The paths of the tree that are not directories, in walk order. -/
def Entry.nonDirs : Entry → List String
  | .file p => [p]
  | .dir _ names => nonDirsOf names
  | .unlistable _ => []
  | .missing _ => []
where
  /-- The non-directory paths of a list of entries. -/
  nonDirsOf : List Entry → List String
    | [] => []
    | e :: es => e.nonDirs ++ nonDirsOf es

/-- Every path of the tree can be accessed. -/
def Entry.accessible (e : Entry) : Bool :=
  e.visits.all (fun v => !v.isFailure)

/-- The walk of the producer over a sequence of visits: a selected file is sent, a failure is
printed and ends the walk. -/
def absorb (decrypt : Bool) : List Visit → Queue → WalkResult × Queue
  | [], q => (.proceed, q)
  | .file p :: vs, q => absorb decrypt vs (if selects decrypt p then q.send p else q)
  | .dir _ :: vs, q => absorb decrypt vs q
  | .failure p :: _, q =>
    (.stop (.access p), { q with printed := q.printed ++ [.accessError p (.access p)] })

/-- The calls made between two worlds, oldest first. -/
def newCalls (w w' : World) : List Event :=
  w'.trace.drop w.trace.length

/-- The call with result `r` on world `w` ended with the error `e` before the delete step:
it returned `e`, made no remove call, and the file at `path` is as before. -/
def AbortedWith (w : World) (path : String) (r : Option Error × World) (e : Error) : Prop :=
  r.1 = some e ∧ (∀ q b, Event.remove q b ∉ newCalls w r.2) ∧ r.2.files path = w.files path

/-- The paths for which `ioutil.ReadFile` was called, oldest first. -/
def codecCalls : List Event → List String
  | [] => []
  | .readFile p _ :: es => p :: codecCalls es
  | _ :: es => codecCalls es

/-- The line is the outcome reported for this path. -/
def Line.reports (l : Line) (path : String) : Prop :=
  l = .succeeded path ∨ ∃ err, l = .failed path err

/-! ## A small environment to run the definitions on

The theorems below hold for every lawful environment.  To evaluate the program on concrete
inputs a stand-in cipher is enough: its sealed payload is the plaintext followed by a
16-byte tag computed from the key, and its hash pads or cuts its input to 32 bytes. -/

/-- The tag of the stand-in cipher. -/
def demoTag (key : Bytes) : Bytes :=
  (key ++ List.replicate 16 0).take 16

/-- The stand-in AEAD. -/
def demoGCM (key : Bytes) : AEAD where
  NonceSize := 12
  Overhead := 16
  sealRaw := fun _ plaintext _ => plaintext ++ demoTag key
  openRaw := fun _ ciphertext _ =>
    if 16 ≤ ciphertext.length ∧ ciphertext.drop (ciphertext.length - 16) = demoTag key then
      some (ciphertext.take (ciphertext.length - 16))
    else none

/-- The stand-in environment, in which the operating system reports no failure. -/
def demoEnv : Env where
  sum256 := fun m => (m ++ List.replicate 32 0).take 32
  gcm := demoGCM
  readFails := fun _ => false
  writeFault := fun _ => none
  removeFails := fun _ => false

/-- The nonce used in the examples. -/
def demoNonce : Bytes :=
  List.replicate 12 7

/-- The key the stand-in hash derives from the passphrase `mykey`. -/
def demoKey : Bytes :=
  createKeyHash demoEnv "mykey"

/-- A blob sealing the given plaintext under `demoKey`. -/
def demoBlob (plaintext : Bytes) : Bytes :=
  (demoEnv.gcm demoKey).Seal demoNonce demoNonce plaintext []

/-- The stand-in environment in which writing the given path fails after the file has been
truncated. -/
def shortWriteEnv (path : String) : Env :=
  { demoEnv with writeFault := fun p => if p = path then some (.shortWrite 0) else none }

/-- The stand-in environment in which the given path cannot be removed. -/
def removeFailsEnv (path : String) : Env :=
  { demoEnv with removeFails := fun p => p == path }

/-- A world holding the given files, with the given random bytes to come. -/
def mkWorld (files : List (String × Bytes)) (entropy : Bytes) : World where
  files := fun q => (files.find? (fun f => f.1 == q)).map Prod.snd
  entropy := entropy
  trace := []
  stdout := []

/-- A world with the file `note.txt` of the end-to-end scenario and twelve random bytes. -/
def noteWorld : World :=
  mkWorld [("note.txt", bytesOf "hello world")] demoNonce

/-- A world with a file too short to hold a nonce. -/
def shortWorld : World :=
  mkWorld [("short.enc", [1, 2, 3])] []

/-- A world holding, under another name, the blob `encryptFile` makes of `note.txt`. -/
def copyWorld : World :=
  mkWorld [("copy.enc", demoBlob (bytesOf "hello world"))] []

/-- A world with a file that does not authenticate and one that does. -/
def mixedWorld : World :=
  mkWorld [("bad.enc", List.replicate 40 0), ("good.enc", demoBlob (bytesOf "hello"))] []

/-- A world with two sealed files, the name of one being the name of the other followed by
`.enc`. -/
def nestedWorld : World :=
  mkWorld [("a.enc", demoBlob (bytesOf "one")),
    ("a.enc.enc", demoBlob (demoBlob (bytesOf "two")))] []

/-- A world with two plaintext files and random bytes for two nonces. -/
def pairWorld (b : UInt8) : World :=
  mkWorld [("a.txt", bytesOf "one"), ("b.md", bytesOf "two")] (List.replicate 24 b)

/-! ## Strings -/

theorem hasSuffix_iff (s t : String) : HasSuffix s t = true ↔ t.data <:+ s.data := by
  simp [HasSuffix]

theorem hasSuffix_append (s t : String) : HasSuffix (s ++ t) t = true := by
  rw [hasSuffix_iff, String.data_append]
  exact List.suffix_append _ _

theorem trimSuffix_append (s t : String) : TrimSuffix (s ++ t) t = s := by
  unfold TrimSuffix
  rw [if_pos (hasSuffix_append s t)]
  apply String.ext
  simp [String.data_append]

theorem append_trimSuffix (s t : String) (h : HasSuffix s t = true) :
    TrimSuffix s t ++ t = s := by
  unfold TrimSuffix
  rw [if_pos h]
  apply String.ext
  rw [String.data_append]
  exact List.suffix_iff_eq_append.mp ((hasSuffix_iff s t).mp h)

theorem append_right_cancel (s₁ s₂ t : String) (h : s₁ ++ t = s₂ ++ t) : s₁ = s₂ := by
  apply String.ext
  have := congrArg String.data h
  simpa [String.data_append] using this

theorem append_enc_ne (s : String) : s ++ ".enc" ≠ s := by
  intro h
  have := congrArg (fun x => x.data.length) h
  simp [String.data_append] at this

theorem trimSuffix_ne (s : String) (h : HasSuffix s ".enc" = true) : TrimSuffix s ".enc" ≠ s := by
  intro h2
  have := append_trimSuffix s ".enc" h
  rw [h2] at this
  exact append_enc_ne s this

theorem hasSuffix_getLast (s t : String) (c : Char) (h : HasSuffix s t = true)
    (ht : t.data.getLast? = some c) : s.data.getLast? = some c := by
  obtain ⟨u, hu⟩ := (hasSuffix_iff s t).mp h
  rw [← hu, List.getLast?_append, ht]
  rfl

/-- A path selected in encrypt mode does not end in `.enc`. -/
theorem not_enc_of_selects (p : String) (h : selects false p = true) :
    HasSuffix p ".enc" = false := by
  cases he : HasSuffix p ".enc"
  · rfl
  · have hc := hasSuffix_getLast p ".enc" 'c' he rfl
    simp only [selects, Bool.false_eq_true, if_false, Bool.or_eq_true] at h
    rcases h with h | h
    · have := hasSuffix_getLast p ".txt" 't' h rfl
      rw [hc] at this
      exact absurd this (by decide)
    · have := hasSuffix_getLast p ".md" 'd' h rfl
      rw [hc] at this
      exact absurd this (by decide)

theorem selects_append_enc (p : String) : selects false (p ++ ".enc") = false := by
  cases h : selects false (p ++ ".enc")
  · rfl
  · have := not_enc_of_selects _ h
    rw [hasSuffix_append] at this
    exact absurd this (by decide)

/-! ## The demo environment is lawful -/

theorem demoTag_length (key : Bytes) : (demoTag key).length = 16 := by
  simp [demoTag]

theorem demoEnv_lawful : demoEnv.Lawful where
  sum256_length := by intro m; simp [demoEnv]
  seal_length := by intro key nonce p _; simp [demoEnv, demoGCM, demoTag_length]
  open_seal := by
    intro key nonce p _ _
    simp [demoEnv, demoGCM, demoTag_length]

theorem demoEnv_noFaults : demoEnv.NoFaults := ⟨fun _ => rfl, fun _ => rfl, fun _ => rfl⟩

/-! ## The world and the library calls -/

@[simp] theorem log_files (w : World) (e : Event) : (w.log e).files = w.files := rfl
@[simp] theorem log_entropy (w : World) (e : Event) : (w.log e).entropy = w.entropy := rfl
@[simp] theorem log_stdout (w : World) (e : Event) : (w.log e).stdout = w.stdout := rfl
@[simp] theorem log_trace (w : World) (e : Event) : (w.log e).trace = w.trace ++ [e] := rfl
@[simp] theorem print_files (w : World) (l : Line) : (w.print l).files = w.files := rfl
@[simp] theorem print_entropy (w : World) (l : Line) : (w.print l).entropy = w.entropy := rfl
@[simp] theorem print_trace (w : World) (l : Line) : (w.print l).trace = w.trace := rfl
@[simp] theorem print_stdout (w : World) (l : Line) : (w.print l).stdout = w.stdout ++ [l] := rfl

@[simp] theorem setFile_same (f : String → Option Bytes) (p : String) (c : Option Bytes) :
    setFile f p c p = c := by simp [setFile]

theorem setFile_other (f : String → Option Bytes) (p q : String) (c : Option Bytes) (h : q ≠ p) :
    setFile f p c q = f q := by simp [setFile, h]

theorem newCipher_ok (key : Bytes) (hk : ValidKey key) : NewCipher key = .ok key := by
  unfold NewCipher
  exact if_pos hk

theorem validKey_createKeyHash (env : Env) (hl : env.Lawful) (secret : String) :
    ValidKey (createKeyHash env secret) :=
  Or.inr (Or.inr (hl.sum256_length _))

theorem opens_seal (env : Env) (hl : env.Lawful) (key nonce plaintext : Bytes) (hk : ValidKey key)
    (hn : nonce.length = (env.gcm key).NonceSize) :
    Opens (env.gcm key) ((env.gcm key).Seal nonce nonce plaintext []) plaintext := by
  unfold Opens AEAD.Seal AEAD.Open
  rw [← hn, List.take_left, List.drop_left, hl.open_seal key nonce plaintext hk hn]
  simp

/-- The one way `encryptFile` succeeds, and the world it leaves. -/
theorem encryptFile_ok_inv (env : Env) (w : World) (path : String) (key P : Bytes)
    (hfile : w.files path = some P) (hok : (encryptFile env w path key).1 = none) :
    env.readFails path = false ∧ ValidKey key ∧ (env.gcm key).NonceSize ≤ w.entropy.length ∧
      env.writeFault (path ++ ".enc") = none ∧ env.removeFails path = false ∧
      (encryptFile env w path key).2.files =
        setFile (setFile w.files (path ++ ".enc")
          (some ((env.gcm key).Seal (w.entropy.take (env.gcm key).NonceSize)
            (w.entropy.take (env.gcm key).NonceSize) P []))) path none := by
  revert hok
  rcases hr : env.readFails path <;>
  by_cases hk : (key.length = 16 ∨ key.length = 24 ∨ key.length = 32) <;>
  by_cases hn : (env.gcm key).NonceSize ≤ w.entropy.length <;>
  rcases hw : env.writeFault (path ++ ".enc") with _ | (_ | n) <;>
  rcases hd : env.removeFails path <;>
  simp [encryptFile, ReadFile, NewCipher, NewGCM, ReadFull, WriteFile, Remove, ValidKey, hfile, hr,
    hk, hn, hw, hd, setFile_other, Ne.symm (append_enc_ne path)]

theorem take_entropy_length (w : World) (n : Nat) (h : n ≤ w.entropy.length) :
    (w.entropy.take n).length = n := by
  rw [List.length_take]
  omega

/-- A step of `encryptFile` on an existing file when nothing fails. -/
theorem encryptFile_step (env : Env) (w : World) (path : String) (key P : Bytes)
    (hr : env.readFails path = false) (hw : env.writeFault (path ++ ".enc") = none)
    (hd : env.removeFails path = false) (hk : ValidKey key)
    (hn : (env.gcm key).NonceSize ≤ w.entropy.length) (hfile : w.files path = some P) :
    (encryptFile env w path key).1 = none ∧
      (encryptFile env w path key).2.files =
        setFile (setFile w.files (path ++ ".enc")
          (some ((env.gcm key).Seal (w.entropy.take (env.gcm key).NonceSize)
            (w.entropy.take (env.gcm key).NonceSize) P []))) path none ∧
      (encryptFile env w path key).2.entropy = w.entropy.drop (env.gcm key).NonceSize := by
  simp [encryptFile, ReadFile, NewGCM, ReadFull, WriteFile, Remove, newCipher_ok key hk, hfile,
    hr, hw, hd, hn, setFile_other, Ne.symm (append_enc_ne path)]

/-- A step of `encryptFile` on a path that holds no file. -/
theorem encryptFile_absent (env : Env) (w : World) (path : String) (key : Bytes)
    (hfile : w.files path = none) :
    encryptFile env w path key = (some (.read path), w.log (.readFile path false)) := by
  simp [encryptFile, ReadFile, hfile]

theorem opens_iff (gcm : AEAD) (blob P : Bytes) :
    Opens gcm blob P ↔ plainOf gcm (some blob) = some P := by
  unfold Opens plainOf AEAD.Open
  by_cases h : blob.length < gcm.NonceSize
  · simp [h]
  · rcases ho : gcm.openRaw (List.take gcm.NonceSize blob) (List.drop gcm.NonceSize blob) []
      with _ | pt <;> simp [h, ho]

/-- A step of `decryptFile` on a file that opens when nothing fails. -/
theorem decryptFile_step (env : Env) (w : World) (path : String) (key P : Bytes)
    (hr : env.readFails path = false) (hw : env.writeFault (TrimSuffix path ".enc") = none)
    (hd : env.removeFails path = false) (hk : ValidKey key)
    (hopen : plainOf (env.gcm key) (w.files path) = some P) :
    (decryptFile env w path key).1 = none ∧
      (decryptFile env w path key).2.files =
        setFile (setFile w.files (TrimSuffix path ".enc") (some P)) path none ∧
      (decryptFile env w path key).2.entropy = w.entropy := by
  rcases hfile : w.files path with _ | blob
  · simp [plainOf, hfile] at hopen
  · rw [hfile] at hopen
    have ho := (opens_iff _ _ _).mpr hopen
    obtain ⟨h1, h2⟩ := ho
    by_cases hp : TrimSuffix path ".enc" = path
    · rw [hp] at hw
      simp [decryptFile, ReadFile, NewGCM, WriteFile, Remove, newCipher_ok key hk, hfile,
        hr, hw, hd, h1, h2, setFile, hp]
    · have hp2 : ¬ path = TrimSuffix path ".enc" := fun h => hp h.symm
      simp [decryptFile, ReadFile, NewGCM, WriteFile, Remove, newCipher_ok key hk, hfile,
        hr, hw, hd, h1, h2, setFile, hp, hp2]

/-- A step of `decryptFile` on a path whose content does not open: an error, and no file
changes. -/
theorem decryptFile_invalid (env : Env) (w : World) (path : String) (key : Bytes)
    (hk : ValidKey key) (hopen : plainOf (env.gcm key) (w.files path) = none) :
    (decryptFile env w path key).1 ≠ none ∧
      (decryptFile env w path key).2.files = w.files ∧
      (decryptFile env w path key).2.entropy = w.entropy := by
  rcases hfile : w.files path with _ | blob
  · simp [decryptFile, ReadFile, hfile]
  · rw [hfile] at hopen
    rcases hr : env.readFails path <;>
    by_cases hlen : blob.length < (env.gcm key).NonceSize <;>
    simp [plainOf, hlen] at hopen <;>
    simp [decryptFile, ReadFile, NewGCM, newCipher_ok key hk, AEAD.Open, hfile, hr, hlen, hopen]

/-- Every way `encryptFile` can end: the error returned, the files and the calls made. -/
theorem encryptFile_cases (env : Env) (w : World) (path : String) (key : Bytes) :
    ((encryptFile env w path key).1 = some (.read path) ∧
      (encryptFile env w path key).2.files = w.files ∧
      (encryptFile env w path key).2.trace = w.trace ++ [.readFile path false]) ∨
    ((encryptFile env w path key).1 = some (.keySize key.length) ∧
      (encryptFile env w path key).2.files = w.files ∧
      (encryptFile env w path key).2.trace = w.trace ++ [.readFile path true]) ∨
    ((encryptFile env w path key).1 = some .entropy ∧
      (encryptFile env w path key).2.files = w.files ∧
      (encryptFile env w path key).2.trace = w.trace ++ [.readFile path true, .randRead false]) ∨
    ((encryptFile env w path key).1 = some (.write (path ++ ".enc")) ∧
      (∀ q, q ≠ path ++ ".enc" → (encryptFile env w path key).2.files q = w.files q) ∧
      (encryptFile env w path key).2.trace = w.trace ++
        [.readFile path true, .randRead true, .sealCall, .writeFile (path ++ ".enc") false]) ∨
    (∃ P b, w.files path = some P ∧
      (encryptFile env w path key).1 = (if b then none else some (.remove path)) ∧
      (encryptFile env w path key).2.files =
        (if b then
          setFile (setFile w.files (path ++ ".enc")
            (some ((env.gcm key).Seal (w.entropy.take (env.gcm key).NonceSize)
              (w.entropy.take (env.gcm key).NonceSize) P []))) path none
        else
          setFile w.files (path ++ ".enc")
            (some ((env.gcm key).Seal (w.entropy.take (env.gcm key).NonceSize)
              (w.entropy.take (env.gcm key).NonceSize) P []))) ∧
      (encryptFile env w path key).2.trace = w.trace ++
        [.readFile path true, .randRead true, .sealCall, .writeFile (path ++ ".enc") true,
          .remove path b]) := by
  rcases hf : w.files path with _ | P
  · left
    simp [encryptFile, ReadFile, hf]
  rcases hr : env.readFails path
  swap
  · left
    simp [encryptFile, ReadFile, hf, hr]
  by_cases hk : (key.length = 16 ∨ key.length = 24 ∨ key.length = 32)
  swap
  · right; left
    simp [encryptFile, ReadFile, NewCipher, hf, hr, hk]
  by_cases hn : (env.gcm key).NonceSize ≤ w.entropy.length
  swap
  · right; right; left
    simp [encryptFile, ReadFile, NewCipher, NewGCM, ReadFull, hf, hr, hk, hn]
  rcases hw : env.writeFault (path ++ ".enc") with _ | (_ | n)
  · right; right; right; right
    rcases hd : env.removeFails path
    · refine ⟨P, true, rfl, ?_⟩
      simp [encryptFile, ReadFile, NewCipher, NewGCM, ReadFull, WriteFile, Remove, hf, hr, hk,
        hn, hw, hd, setFile_other, Ne.symm (append_enc_ne path)]
    · refine ⟨P, false, rfl, ?_⟩
      simp [encryptFile, ReadFile, NewCipher, NewGCM, ReadFull, WriteFile, Remove, hf, hr, hk,
        hn, hw, hd, setFile_other, Ne.symm (append_enc_ne path)]
  · right; right; right; left
    simp [encryptFile, ReadFile, NewCipher, NewGCM, ReadFull, WriteFile, hf, hr, hk, hn, hw]
  · right; right; right; left
    simp [encryptFile, ReadFile, NewCipher, NewGCM, ReadFull, WriteFile, hf, hr, hk, hn, hw]
    intro q hq
    exact setFile_other _ _ _ _ hq

/-- Every way `decryptFile` can end: the error returned, the files and the calls made. -/
theorem decryptFile_cases (env : Env) (w : World) (path : String) (key : Bytes) :
    ((decryptFile env w path key).1 = some (.read path) ∧
      (decryptFile env w path key).2.files = w.files ∧
      (decryptFile env w path key).2.trace = w.trace ++ [.readFile path false]) ∨
    ((decryptFile env w path key).1 = some (.keySize key.length) ∧
      (decryptFile env w path key).2.files = w.files ∧
      (decryptFile env w path key).2.trace = w.trace ++ [.readFile path true]) ∨
    ((decryptFile env w path key).1 = some .tooShort ∧
      (decryptFile env w path key).2.files = w.files ∧
      (decryptFile env w path key).2.trace = w.trace ++ [.readFile path true]) ∨
    ((decryptFile env w path key).1 = some .auth ∧
      (decryptFile env w path key).2.files = w.files ∧
      (decryptFile env w path key).2.trace = w.trace ++ [.readFile path true, .openCall false]) ∨
    ((decryptFile env w path key).1 = some (.write (TrimSuffix path ".enc")) ∧
      (∀ q, q ≠ TrimSuffix path ".enc" → (decryptFile env w path key).2.files q = w.files q) ∧
      (decryptFile env w path key).2.trace = w.trace ++
        [.readFile path true, .openCall true, .writeFile (TrimSuffix path ".enc") false]) ∨
    (∃ P b, plainOf (env.gcm key) (w.files path) = some P ∧
      (decryptFile env w path key).1 = (if b then none else some (.remove path)) ∧
      (decryptFile env w path key).2.files =
        (if b then setFile (setFile w.files (TrimSuffix path ".enc") (some P)) path none
        else setFile w.files (TrimSuffix path ".enc") (some P)) ∧
      (decryptFile env w path key).2.trace = w.trace ++
        [.readFile path true, .openCall true, .writeFile (TrimSuffix path ".enc") true,
          .remove path b]) := by
  rcases hf : w.files path with _ | blob
  · left
    simp [decryptFile, ReadFile, hf]
  rcases hr : env.readFails path
  swap
  · left
    simp [decryptFile, ReadFile, hf, hr]
  by_cases hk : (key.length = 16 ∨ key.length = 24 ∨ key.length = 32)
  swap
  · right; left
    simp [decryptFile, ReadFile, NewCipher, hf, hr, hk]
  by_cases hlen : blob.length < (env.gcm key).NonceSize
  · right; right; left
    simp [decryptFile, ReadFile, NewCipher, NewGCM, hf, hr, hk, hlen]
  rcases ho : (env.gcm key).openRaw (blob.take (env.gcm key).NonceSize)
    (blob.drop (env.gcm key).NonceSize) [] with _ | P
  · right; right; right; left
    simp [decryptFile, ReadFile, NewCipher, NewGCM, AEAD.Open, hf, hr, hk, hlen, ho]
  rcases hw : env.writeFault (TrimSuffix path ".enc") with _ | (_ | n)
  · right; right; right; right; right
    have hex : ∃ c, setFile w.files (TrimSuffix path ".enc") (some P) path = some c := by
      by_cases hp : path = TrimSuffix path ".enc"
      · exact ⟨P, by rw [← hp, setFile_same]⟩
      · exact ⟨blob, by rw [setFile_other _ _ _ _ hp, hf]⟩
    obtain ⟨c, hc⟩ := hex
    rcases hd : env.removeFails path
    · refine ⟨P, true, by simp [plainOf, hlen, ho], ?_⟩
      simp [decryptFile, ReadFile, NewCipher, NewGCM, AEAD.Open, WriteFile, Remove, hf, hr, hk,
        hlen, ho, hw, hd, hc]
    · refine ⟨P, false, by simp [plainOf, hlen, ho], ?_⟩
      simp [decryptFile, ReadFile, NewCipher, NewGCM, AEAD.Open, WriteFile, Remove, hf, hr, hk,
        hlen, ho, hw, hd, hc]
  · right; right; right; right; left
    simp [decryptFile, ReadFile, NewCipher, NewGCM, AEAD.Open, WriteFile, hf, hr, hk, hlen, ho, hw]
  · right; right; right; right; left
    simp [decryptFile, ReadFile, NewCipher, NewGCM, AEAD.Open, WriteFile, hf, hr, hk, hlen, ho, hw]
    intro q hq
    exact setFile_other _ _ _ _ hq

/-- In every environment: when `path` does not end in `.enc` and holds a blob that opens, a
write that fails after the first `n` bytes makes `decryptFile` return the write error and
leaves those `n` bytes of plaintext in the input file itself. -/
theorem decryptFile_short_write (env : Env) (w : World) (path : String) (key P : Bytes)
    (n : Nat) (hs : HasSuffix path ".enc" = false) (hr : env.readFails path = false)
    (hw : env.writeFault path = some (.shortWrite n)) (hk : ValidKey key)
    (hopen : plainOf (env.gcm key) (w.files path) = some P) :
    (decryptFile env w path key).1 = some (.write path) ∧
      (decryptFile env w path key).2.files path = some (P.take n) := by
  have ht : TrimSuffix path ".enc" = path := by simp [TrimSuffix, hs]
  rcases hfile : w.files path with _ | blob
  · simp [plainOf, hfile] at hopen
  · rw [hfile] at hopen
    obtain ⟨h1, h2⟩ := (opens_iff _ _ _).mpr hopen
    simp [decryptFile, ReadFile, NewGCM, WriteFile, newCipher_ok key hk, hfile, hr, hw, h1, h2,
      ht]

/-- In every environment: when the file exists, the key is accepted, a nonce can be drawn
and the write succeeds, a failing delete makes `encryptFile` return the remove error with
the input still in place and the complete output written. -/
theorem encryptFile_remove_fails (env : Env) (w : World) (path : String) (key P : Bytes)
    (hr : env.readFails path = false) (hw : env.writeFault (path ++ ".enc") = none)
    (hd : env.removeFails path = true) (hk : ValidKey key)
    (hn : (env.gcm key).NonceSize ≤ w.entropy.length) (hfile : w.files path = some P) :
    (encryptFile env w path key).1 = some (.remove path) ∧
      (encryptFile env w path key).2.files path = some P ∧
      (encryptFile env w path key).2.files (path ++ ".enc") =
        some ((env.gcm key).Seal (w.entropy.take (env.gcm key).NonceSize)
          (w.entropy.take (env.gcm key).NonceSize) P []) := by
  simp [encryptFile, ReadFile, NewGCM, ReadFull, WriteFile, Remove, newCipher_ok key hk, hfile,
    hr, hw, hd, hn, setFile_other, Ne.symm (append_enc_ne path)]

/-! ## The producer -/

theorem walkFn_file (d : Bool) (p : String) (q : Queue) :
    walkFn d p false none q = (.proceed, if selects d p then q.send p else q) := by
  cases d <;> simp [walkFn, selects] <;> split <;> simp_all

theorem walkFn_dir (d : Bool) (p : String) (q : Queue) :
    walkFn d p true none q = (.proceed, q) := by
  simp [walkFn]

theorem walkFn_err (d : Bool) (p : String) (b : Bool) (err : Error) (q : Queue) :
    walkFn d p b (some err) q =
      (.stop err, { q with printed := q.printed ++ [.accessError p err] }) := by
  simp [walkFn]

theorem absorb_ne_skipDir (d : Bool) : ∀ (vs : List Visit) (q : Queue),
    (absorb d vs q).1 ≠ .skipDir
  | [], q => by simp [absorb]
  | .file p :: vs, q => by
    rw [absorb]
    exact absorb_ne_skipDir d vs _
  | .dir p :: vs, q => by
    rw [absorb]
    exact absorb_ne_skipDir d vs _
  | .failure p :: vs, q => by simp [absorb]

theorem absorb_append (d : Bool) : ∀ (a b : List Visit) (q : Queue),
    absorb d (a ++ b) q =
      match absorb d a q with
      | (.proceed, q) => absorb d b q
      | r => r
  | [], b, q => by simp [absorb]
  | .file p :: vs, b, q => by
    simp only [List.cons_append, absorb]
    exact absorb_append d vs b _
  | .dir p :: vs, b, q => by
    simp only [List.cons_append, absorb]
    exact absorb_append d vs b _
  | .failure p :: vs, b, q => by simp [absorb]

mutual
theorem walk_eq (d : Bool) : ∀ (e : Entry) (q : Queue),
    walk (walkFn d) e q = absorb d e.visits q
  | .file p, q => by
    simp [walk, Entry.visits, absorb, walkFn_file]
  | .missing p, q => by
    simp [walk, Entry.visits, absorb, walkFn_err]
  | .unlistable p, q => by
    simp [walk, Entry.visits, absorb, walkFn_err]
  | .dir p names, q => by
    simp only [walk, Entry.visits, absorb, walkFn_dir]
    exact walkNames_eq d names q
theorem walkNames_eq (d : Bool) : ∀ (es : List Entry) (q : Queue),
    walk.walkNames (walkFn d) es q = absorb d (Entry.visits.visitsOf es) q
  | [], q => by simp [walk.walkNames, Entry.visits.visitsOf, absorb]
  | .missing p :: rest, q => by
    simp [walk.walkNames, Entry.visits.visitsOf, Entry.visits, absorb, walkFn_err]
  | .file p :: rest, q => by
    simp only [walk.walkNames, Entry.visits.visitsOf, Entry.visits, walk, walkFn_file,
      List.singleton_append, absorb]
    exact walkNames_eq d rest _
  | .unlistable p :: rest, q => by
    simp [walk.walkNames, Entry.visits.visitsOf, Entry.visits, absorb, walk, walkFn_err]
  | .dir p names :: rest, q => by
    have h1 := walk_eq d (.dir p names) q
    have h2 := absorb_ne_skipDir d (Entry.dir p names).visits q
    rw [walk.walkNames]
    · rw [Entry.visits.visitsOf, absorb_append, h1]
      rcases h : absorb d (Entry.dir p names).visits q with ⟨r, q2⟩
      rw [h] at h2
      cases r with
      | proceed => exact walkNames_eq d rest q2
      | skipDir => exact absurd rfl h2
      | stop err => rfl
    · intro p1 h
      cases h
end

theorem absorb_sent (d : Bool) : ∀ (vs : List Visit) (q : Queue),
    (absorb d vs q).2.sent =
      q.sent ++ (vs.takeWhile (fun v => !v.isFailure)).filterMap (Visit.selected d)
  | [], q => by simp [absorb]
  | .file p :: vs, q => by
    rw [absorb, absorb_sent d vs]
    by_cases h : selects d p = true <;>
      simp [h, Visit.isFailure, Visit.selected, Queue.send, List.takeWhile_cons]
  | .dir p :: vs, q => by
    rw [absorb, absorb_sent d vs]
    simp [Visit.isFailure, Visit.selected, List.takeWhile_cons]
  | .failure p :: vs, q => by
    simp [absorb, Visit.isFailure, List.takeWhile_cons]

theorem absorb_printed (d : Bool) : ∀ (vs : List Visit) (q : Queue),
    (absorb d vs q).2.printed =
      q.printed ++
        match vs.find? Visit.isFailure with
        | some v => [.accessError v.path (.access v.path)]
        | none => []
  | [], q => by simp [absorb]
  | .file p :: vs, q => by
    rw [absorb, absorb_printed d vs]
    by_cases h : selects d p = true <;> simp [h, Visit.isFailure, Queue.send, List.find?_cons]
  | .dir p :: vs, q => by
    rw [absorb, absorb_printed d vs]
    simp [Visit.isFailure, List.find?_cons]
  | .failure p :: vs, q => by
    simp [absorb, Visit.isFailure, Visit.path, List.find?_cons]

theorem producer_eq (dir : Entry) (d : Bool) :
    producer dir d = { (absorb d dir.visits ⟨[], false, []⟩).2 with closed := true } := by
  unfold producer Walk
  rw [walk_eq]
  rcases absorb d dir.visits ⟨[], false, []⟩ with ⟨r, q⟩
  cases r <;> rfl

theorem producer_sent (dir : Entry) (d : Bool) :
    (producer dir d).sent =
      (dir.visits.takeWhile (fun v => !v.isFailure)).filterMap (Visit.selected d) := by
  rw [producer_eq]
  show (absorb d dir.visits ⟨[], false, []⟩).2.sent = _
  rw [absorb_sent]
  rfl

mutual
theorem visits_selected (d : Bool) : ∀ e : Entry,
    e.visits.filterMap (Visit.selected d) = e.nonDirs.filter (selects d)
  | .file p => by
    by_cases h : selects d p = true <;> simp [Entry.visits, Entry.nonDirs, Visit.selected, h]
  | .missing p => by simp [Entry.visits, Entry.nonDirs, Visit.selected]
  | .unlistable p => by simp [Entry.visits, Entry.nonDirs, Visit.selected]
  | .dir p names => by
    simp only [Entry.visits, Entry.nonDirs, List.filterMap_cons, Visit.selected]
    exact visitsOf_selected d names
theorem visitsOf_selected (d : Bool) : ∀ es : List Entry,
    (Entry.visits.visitsOf es).filterMap (Visit.selected d)
      = (Entry.nonDirs.nonDirsOf es).filter (selects d)
  | [] => by simp [Entry.visits.visitsOf, Entry.nonDirs.nonDirsOf]
  | e :: es => by
    simp only [Entry.visits.visitsOf, Entry.nonDirs.nonDirsOf, List.filterMap_append,
      List.filter_append]
    rw [visits_selected d e, visitsOf_selected d es]
end

theorem takeWhile_accessible (dir : Entry) (h : dir.accessible = true) :
    dir.visits.takeWhile (fun v => !v.isFailure) = dir.visits := by
  rw [List.takeWhile_eq_self_iff]
  intro v hv
  exact List.all_eq_true.mp h v hv

/-! ## The worker -/

theorem workerLoop_cons (env : Env) (key : Bytes) (d : Bool) (p : String) (jobs : List String)
    (w : World) :
    workerLoop env key d (p :: jobs) w = workerLoop env key d jobs (handle env key d w p) := by
  cases d <;> simp only [workerLoop, handle, codec]

theorem workerLoop_append (env : Env) (key : Bytes) (d : Bool) :
    ∀ (pre post : List String) (w : World),
      workerLoop env key d (pre ++ post) w
        = workerLoop env key d post (workerLoop env key d pre w)
  | [], post, w => rfl
  | p :: pre, post, w => by
    rw [List.cons_append, workerLoop_cons, workerLoop_cons, workerLoop_append env key d pre]

theorem handle_files (env : Env) (key : Bytes) (d : Bool) (w : World) (p : String) :
    (handle env key d w p).files = (codec env key d w p).2.files := by
  unfold handle
  split <;> rfl

theorem handle_entropy (env : Env) (key : Bytes) (d : Bool) (w : World) (p : String) :
    (handle env key d w p).entropy = (codec env key d w p).2.entropy := by
  unfold handle
  split <;> rfl

theorem handle_trace (env : Env) (key : Bytes) (d : Bool) (w : World) (p : String) :
    (handle env key d w p).trace = (codec env key d w p).2.trace := by
  unfold handle
  split <;> rfl

theorem encryptFile_stdout (env : Env) (w : World) (path : String) (key : Bytes) :
    (encryptFile env w path key).2.stdout = w.stdout := by
  rcases hf : w.files path with _ | P <;> rcases hr : env.readFails path <;>
  by_cases hk : (key.length = 16 ∨ key.length = 24 ∨ key.length = 32) <;>
  by_cases hn : (env.gcm key).NonceSize ≤ w.entropy.length <;>
  rcases hw : env.writeFault (path ++ ".enc") with _ | (_ | n) <;>
  rcases hd : env.removeFails path <;>
  simp [encryptFile, ReadFile, NewCipher, NewGCM, ReadFull, WriteFile, Remove, hf, hr, hk, hn, hw,
    hd, setFile_other, Ne.symm (append_enc_ne path)]

theorem encryptFile_entropy (env : Env) (w : World) (path : String) (key : Bytes)
    (hn : (env.gcm key).NonceSize ≤ w.entropy.length) :
    w.entropy.length ≤ (encryptFile env w path key).2.entropy.length + (env.gcm key).NonceSize := by
  rcases hf : w.files path with _ | P <;> rcases hr : env.readFails path <;>
  by_cases hk : (key.length = 16 ∨ key.length = 24 ∨ key.length = 32) <;>
  rcases hw : env.writeFault (path ++ ".enc") with _ | (_ | n) <;>
  rcases hd : env.removeFails path <;>
  simp [encryptFile, ReadFile, NewCipher, NewGCM, ReadFull, WriteFile, Remove, hf, hr, hk, hn, hw,
    hd, setFile_other, Ne.symm (append_enc_ne path)]

theorem decryptFile_stdout_entropy (env : Env) (w : World) (path : String) (key : Bytes) :
    (decryptFile env w path key).2.stdout = w.stdout ∧
      (decryptFile env w path key).2.entropy = w.entropy := by
  rcases hf : w.files path with _ | blob
  · simp [decryptFile, ReadFile, hf]
  rcases hr : env.readFails path
  swap
  · simp [decryptFile, ReadFile, hf, hr]
  by_cases hk : (key.length = 16 ∨ key.length = 24 ∨ key.length = 32)
  swap
  · simp [decryptFile, ReadFile, NewCipher, hf, hr, hk]
  by_cases hlen : blob.length < (env.gcm key).NonceSize
  · simp [decryptFile, ReadFile, NewCipher, NewGCM, hf, hr, hk, hlen]
  rcases ho : (env.gcm key).openRaw (blob.take (env.gcm key).NonceSize)
    (blob.drop (env.gcm key).NonceSize) [] with _ | P
  · simp [decryptFile, ReadFile, NewCipher, NewGCM, AEAD.Open, hf, hr, hk, hlen, ho]
  have hex : ∃ c, setFile w.files (TrimSuffix path ".enc") (some P) path = some c := by
    by_cases hp : path = TrimSuffix path ".enc"
    · exact ⟨P, by rw [← hp, setFile_same]⟩
    · exact ⟨blob, by rw [setFile_other _ _ _ _ hp, hf]⟩
  obtain ⟨c, hc⟩ := hex
  rcases hw : env.writeFault (TrimSuffix path ".enc") with _ | (_ | n) <;>
  rcases hd : env.removeFails path <;>
  simp [decryptFile, ReadFile, NewCipher, NewGCM, AEAD.Open, WriteFile, Remove, hf, hr, hk,
    hlen, ho, hw, hd, hc]

theorem codec_stdout (env : Env) (key : Bytes) (d : Bool) (w : World) (p : String) :
    (codec env key d w p).2.stdout = w.stdout := by
  cases d
  · exact encryptFile_stdout env w p key
  · exact (decryptFile_stdout_entropy env w p key).1

theorem handle_stdout (env : Env) (key : Bytes) (d : Bool) (w : World) (p : String) :
    ∃ l : Line, l.reports p ∧ (handle env key d w p).stdout = w.stdout ++ [l] ∧
      (l = .succeeded p ↔ (codec env key d w p).1 = none) := by
  have hs := codec_stdout env key d w p
  unfold handle
  split
  next err h =>
    exact ⟨.failed p err, Or.inr ⟨err, rfl⟩, by simp [hs], by simp [h]⟩
  next h =>
    exact ⟨.succeeded p, Or.inl rfl, by simp [hs], by simp [h]⟩

/-- The calls of one codec call: exactly one read, of the path itself. -/
theorem codec_calls (env : Env) (key : Bytes) (d : Bool) (w : World) (p : String) :
    ∃ evs, (codec env key d w p).2.trace = w.trace ++ evs ∧ codecCalls evs = [p] := by
  cases d
  · simp only [codec, Bool.false_eq_true, if_false]
    rcases encryptFile_cases env w p key with h | h | h | h | ⟨P, b, _, h⟩ <;>
      exact ⟨_, h.2.2, by simp [codecCalls]⟩
  · simp only [codec, if_true]
    rcases decryptFile_cases env w p key with h | h | h | h | h | ⟨P, b, _, h⟩ <;>
      exact ⟨_, h.2.2, by simp [codecCalls]⟩

theorem codecCalls_append : ∀ (a b : List Event),
    codecCalls (a ++ b) = codecCalls a ++ codecCalls b
  | [], b => rfl
  | e :: a, b => by
    cases e <;> simp [codecCalls, codecCalls_append a b]

theorem workerLoop_stdout (env : Env) (key : Bytes) (d : Bool) :
    ∀ (jobs : List String) (w : World),
      ∃ lines, (workerLoop env key d jobs w).stdout = w.stdout ++ lines ∧
        List.Forall₂ (fun p (l : Line) => l.reports p) jobs lines
  | [], w => ⟨[], by simp [workerLoop], List.Forall₂.nil⟩
  | p :: jobs, w => by
    obtain ⟨l, hl, hs, _⟩ := handle_stdout env key d w p
    obtain ⟨lines, h1, h2⟩ := workerLoop_stdout env key d jobs (handle env key d w p)
    refine ⟨l :: lines, ?_, List.Forall₂.cons hl h2⟩
    rw [workerLoop_cons, h1, hs]
    simp

theorem workerLoop_calls (env : Env) (key : Bytes) (d : Bool) :
    ∀ (jobs : List String) (w : World),
      ∃ evs, (workerLoop env key d jobs w).trace = w.trace ++ evs ∧ codecCalls evs = jobs
  | [], w => ⟨[], by simp [workerLoop], rfl⟩
  | p :: jobs, w => by
    obtain ⟨e1, ht, hc⟩ := codec_calls env key d w p
    obtain ⟨e2, h1, h2⟩ := workerLoop_calls env key d jobs (handle env key d w p)
    refine ⟨e1 ++ e2, ?_, ?_⟩
    · rw [workerLoop_cons, h1, handle_trace, ht, List.append_assoc]
    · rw [codecCalls_append, hc, h2]
      rfl

/-- A codec call changes no file outside its footprint. -/
theorem codec_frame (env : Env) (key : Bytes) (d : Bool) (w : World) (p q : String)
    (hq : q ∉ footprint d p) : (codec env key d w p).2.files q = w.files q := by
  cases d
  · simp only [footprint, Bool.false_eq_true, if_false, List.mem_cons, List.mem_singleton,
      List.not_mem_nil, or_false, not_or] at hq
    simp only [codec, Bool.false_eq_true, if_false]
    rcases encryptFile_cases env w p key with h | h | h | h | ⟨P, b, _, h⟩
    · rw [h.2.1]
    · rw [h.2.1]
    · rw [h.2.1]
    · exact h.2.1 q hq.2
    · rw [h.2.1]
      cases b <;> simp [setFile_other, hq.1, hq.2]
  · simp only [footprint, if_true, List.mem_cons, List.mem_singleton,
      List.not_mem_nil, or_false, not_or] at hq
    simp only [codec, if_true]
    rcases decryptFile_cases env w p key with h | h | h | h | h | ⟨P, b, _, h⟩
    · rw [h.2.1]
    · rw [h.2.1]
    · rw [h.2.1]
    · rw [h.2.1]
    · exact h.2.1 q hq.2
    · rw [h.2.1]
      cases b <;> simp [setFile_other, hq.1, hq.2]

theorem workerLoop_frame (env : Env) (key : Bytes) (d : Bool) (q : String) :
    ∀ (jobs : List String) (w : World), (∀ p ∈ jobs, q ∉ footprint d p) →
      (workerLoop env key d jobs w).files q = w.files q
  | [], w, _ => rfl
  | p :: jobs, w, h => by
    rw [workerLoop_cons, workerLoop_frame env key d q jobs _
      (fun p' hp' => h p' (List.mem_cons_of_mem _ hp')), handle_files]
    exact codec_frame env key d w p q (h p (List.mem_cons_self _ _))

theorem workerLoop_entropy_encrypt (env : Env) (key : Bytes) :
    ∀ (jobs : List String) (w : World) (k : Nat),
      (env.gcm key).NonceSize * jobs.length + k ≤ w.entropy.length →
      k ≤ (workerLoop env key false jobs w).entropy.length
  | [], w, k, h => by
    simp at h
    exact h
  | p :: jobs, w, k, h => by
    rw [workerLoop_cons]
    apply workerLoop_entropy_encrypt env key jobs
    rw [handle_entropy]
    simp only [List.length_cons, Nat.mul_succ] at h
    have := encryptFile_entropy env w p key (by omega)
    simp only [codec, Bool.false_eq_true, if_false]
    omega

theorem handle_succeeded (env : Env) (key : Bytes) (d : Bool) (w : World) (p : String)
    (h : (codec env key d w p).1 = none) :
    (handle env key d w p).stdout = w.stdout ++ [.succeeded p] := by
  obtain ⟨l, _, hs, hiff⟩ := handle_stdout env key d w p
  rw [hs, hiff.mpr h]

theorem workerLoop_snoc (env : Env) (key : Bytes) (d : Bool) (pre : List String) (p : String)
    (w : World) :
    workerLoop env key d (pre ++ [p]) w = handle env key d (workerLoop env key d pre w) p := by
  rw [workerLoop_append, workerLoop_cons]
  rfl

/-! ## Order of processing -/

theorem hasSuffix_enc_of_selects (p : String) (h : selects true p = true) :
    HasSuffix p ".enc" = true := by
  simpa [selects] using h

theorem ne_append_enc_of_selects (p q : String) (h : selects false p = true) :
    p ≠ q ++ ".enc" := by
  intro he
  rw [he, selects_append_enc] at h
  exact absurd h (by decide)

theorem eq_append_enc_of_trim (p q : String) (h : selects true p = true)
    (he : q = TrimSuffix p ".enc") : p = q ++ ".enc" := by
  rw [he, append_trimSuffix p ".enc" (hasSuffix_enc_of_selects p h)]

/-- The files after one turn of the loop in encrypt mode, when nothing fails. -/
theorem handle_encrypt (env : Env) (hl : env.Lawful) (hf : env.NoFaults) (key : Bytes)
    (hk : ValidKey key) (w : World) (p : String)
    (hn : (env.gcm key).NonceSize ≤ w.entropy.length) :
    (∀ x, x ≠ p → x ≠ p ++ ".enc" → (handle env key false w p).files x = w.files x) ∧
      (handle env key false w p).files p = none ∧
      (w.files p = none → (handle env key false w p).files = w.files) ∧
      (∀ P, w.files p = some P → ∃ blob,
        (handle env key false w p).files (p ++ ".enc") = some blob ∧
          Opens (env.gcm key) blob P) := by
  rw [handle_files]
  simp only [codec, Bool.false_eq_true, if_false]
  refine ⟨?_, ?_, ?_, ?_⟩
  · intro x h1 h2
    have := codec_frame env key false w p x (by simp [footprint, h1, h2])
    simpa only [codec, Bool.false_eq_true, if_false] using this
  · rcases hfile : w.files p with _ | P
    · rw [encryptFile_absent env w p key hfile]
      exact hfile
    · obtain ⟨_, s2, _⟩ := encryptFile_step env w p key P (hf.read _) (hf.write _)
        (hf.remove _) hk hn hfile
      rw [s2, setFile_same]
  · intro hfile
    rw [encryptFile_absent env w p key hfile]
    rfl
  · intro P hfile
    obtain ⟨_, s2, _⟩ := encryptFile_step env w p key P (hf.read _) (hf.write _)
      (hf.remove _) hk hn hfile
    refine ⟨_, ?_, opens_seal env hl key _ P hk (take_entropy_length w _ hn)⟩
    rw [s2, setFile_other _ _ _ _ (append_enc_ne p), setFile_same]

/-- The files after the loop in encrypt mode over distinct selected paths, when nothing
fails: every input is gone, every output opens to the content of its input, every other
file is as before. -/
theorem encLoop_spec (env : Env) (hl : env.Lawful) (hf : env.NoFaults) (key : Bytes)
    (hk : ValidKey key) : ∀ (l : List String) (w : World), l.Nodup →
    (∀ p ∈ l, selects false p = true) →
    (env.gcm key).NonceSize * l.length ≤ w.entropy.length →
    ∀ q, (q ∈ l → (workerLoop env key false l w).files q = none) ∧
      (∀ p ∈ l, q = p ++ ".enc" →
        (w.files p = none → (workerLoop env key false l w).files q = w.files q) ∧
        (∀ P, w.files p = some P → ∃ blob,
          (workerLoop env key false l w).files q = some blob ∧ Opens (env.gcm key) blob P)) ∧
      (q ∉ l → (∀ p ∈ l, q ≠ p ++ ".enc") → (workerLoop env key false l w).files q = w.files q)
  | [], w, _, _, _, q => by simp [workerLoop]
  | p0 :: l, w, hnd, hsel, hent, q => by
    rw [List.nodup_cons] at hnd
    obtain ⟨hp0, hnd⟩ := hnd
    have hsel0 := hsel p0 (List.mem_cons_self _ _)
    have hsel' : ∀ p ∈ l, selects false p = true := fun p hp => hsel p (List.mem_cons_of_mem _ hp)
    simp only [List.length_cons, Nat.mul_succ] at hent
    have hn : (env.gcm key).NonceSize ≤ w.entropy.length := by omega
    obtain ⟨F1, F2, F3, F4⟩ := handle_encrypt env hl hf key hk w p0 hn
    have hent' : (env.gcm key).NonceSize * l.length ≤ (handle env key false w p0).entropy.length := by
      rw [handle_entropy]
      have := encryptFile_entropy env w p0 key hn
      simp only [codec, Bool.false_eq_true, if_false]
      omega
    obtain ⟨I1, I2, I3⟩ := encLoop_spec env hl hf key hk l (handle env key false w p0) hnd hsel'
      hent' q
    rw [workerLoop_cons]
    refine ⟨?_, ?_, ?_⟩
    · intro hq
      rcases List.mem_cons.mp hq with rfl | hq
      · rw [I3 hp0 (fun p hp => ne_append_enc_of_selects _ p hsel0)]
        exact F2
      · exact I1 hq
    · intro p hp hqe
      rcases List.mem_cons.mp hp with rfl | hp
      · have hql : q ∉ l := by
          intro hq
          have := hsel' q hq
          rw [hqe, selects_append_enc] at this
          exact absurd this (by decide)
        have hqo : ∀ p' ∈ l, q ≠ p' ++ ".enc" := by
          intro p' hp' he
          rw [hqe] at he
          exact hp0 (append_right_cancel _ _ _ he ▸ hp')
        rw [I3 hql hqo]
        constructor
        · intro hnone
          rw [F3 hnone]
        · intro P hP
          rw [hqe]
          exact F4 P hP
      · have hpne : p ≠ p0 := fun h => hp0 (h ▸ hp)
        have hp1 : (handle env key false w p0).files p = w.files p :=
          F1 p hpne (ne_append_enc_of_selects p p0 (hsel' p hp))
        have hq1 : (handle env key false w p0).files q = w.files q := by
          apply F1 q
          · rw [hqe]
            exact fun h => ne_append_enc_of_selects p0 p hsel0 h.symm
          · rw [hqe]
            exact fun h => hpne (append_right_cancel _ _ _ h)
        obtain ⟨J1, J2⟩ := I2 p hp hqe
        rw [hp1, hq1] at J1
        rw [hp1] at J2
        exact ⟨J1, J2⟩
    · intro hq hqo
      rw [I3 (fun h => hq (List.mem_cons_of_mem _ h))
        (fun p hp => hqo p (List.mem_cons_of_mem _ hp))]
      exact F1 q (fun h => hq (h ▸ List.mem_cons_self _ _)) (hqo p0 (List.mem_cons_self _ _))

/-- The files after one turn of the loop in decrypt mode, when nothing fails. -/
theorem handle_decrypt (env : Env) (hf : env.NoFaults) (key : Bytes) (hk : ValidKey key)
    (w : World) (p : String) (hs : selects true p = true) :
    (∀ x, x ≠ p → x ≠ TrimSuffix p ".enc" → (handle env key true w p).files x = w.files x) ∧
      (handle env key true w p).files p =
        (if (plainOf (env.gcm key) (w.files p)).isSome then none else w.files p) ∧
      (handle env key true w p).files (TrimSuffix p ".enc") =
        (match plainOf (env.gcm key) (w.files p) with
          | some P => some P
          | none => w.files (TrimSuffix p ".enc")) := by
  rw [handle_files]
  simp only [codec, if_true]
  have hne := trimSuffix_ne p (hasSuffix_enc_of_selects p hs)
  refine ⟨?_, ?_, ?_⟩
  · intro x h1 h2
    have := codec_frame env key true w p x (by simp [footprint, h1, h2])
    simpa only [codec, if_true] using this
  · rcases ho : plainOf (env.gcm key) (w.files p) with _ | P
    · rw [(decryptFile_invalid env w p key hk ho).2.1]
      simp
    · obtain ⟨_, s2, _⟩ := decryptFile_step env w p key P (hf.read _) (hf.write _)
        (hf.remove _) hk ho
      rw [s2, setFile_same]
      simp
  · rcases ho : plainOf (env.gcm key) (w.files p) with _ | P
    · rw [(decryptFile_invalid env w p key hk ho).2.1]
    · obtain ⟨_, s2, _⟩ := decryptFile_step env w p key P (hf.read _) (hf.write _)
        (hf.remove _) hk ho
      rw [s2, setFile_other _ _ _ _ hne, setFile_same]

/-- The files after the loop in decrypt mode over distinct selected paths none of which is
another one followed by `.enc`, when nothing fails: a function of the files before and of
the set of paths alone. -/
theorem decLoop_spec (env : Env) (hf : env.NoFaults) (key : Bytes) (hk : ValidKey key) :
    ∀ (l : List String) (w : World), l.Nodup → (∀ p ∈ l, selects true p = true) →
    (∀ p ∈ l, p ++ ".enc" ∉ l) →
    ∀ q, (q ∈ l → (workerLoop env key true l w).files q =
        (if (plainOf (env.gcm key) (w.files q)).isSome then none else w.files q)) ∧
      (∀ p ∈ l, q = TrimSuffix p ".enc" → (workerLoop env key true l w).files q =
        (match plainOf (env.gcm key) (w.files p) with
          | some P => some P
          | none => w.files q)) ∧
      (q ∉ l → (∀ p ∈ l, q ≠ TrimSuffix p ".enc") →
        (workerLoop env key true l w).files q = w.files q)
  | [], w, _, _, _, q => by simp [workerLoop]
  | p0 :: l, w, hnd, hsel, hov, q => by
    rw [List.nodup_cons] at hnd
    obtain ⟨hp0, hnd⟩ := hnd
    have hsel0 := hsel p0 (List.mem_cons_self _ _)
    have hsel' : ∀ p ∈ l, selects true p = true := fun p hp => hsel p (List.mem_cons_of_mem _ hp)
    have hov' : ∀ p ∈ l, p ++ ".enc" ∉ l :=
      fun p hp h => hov p (List.mem_cons_of_mem _ hp) (List.mem_cons_of_mem _ h)
    -- no path of the tail is `p0` with `.enc` added or removed
    have hA : ∀ p ∈ l, p ≠ TrimSuffix p0 ".enc" := by
      intro p hp he
      have := eq_append_enc_of_trim p0 p hsel0 he
      exact hov p (List.mem_cons_of_mem _ hp) (this ▸ List.mem_cons_self _ _)
    have hB : ∀ p ∈ l, p0 ≠ TrimSuffix p ".enc" := by
      intro p hp he
      have := eq_append_enc_of_trim p p0 (hsel' p hp) he
      exact hov p0 (List.mem_cons_self _ _) (this ▸ List.mem_cons_of_mem _ hp)
    have hC : ∀ p ∈ l, TrimSuffix p ".enc" ≠ TrimSuffix p0 ".enc" := by
      intro p hp he
      have h1 := eq_append_enc_of_trim p _ (hsel' p hp) rfl
      have h2 := eq_append_enc_of_trim p0 _ hsel0 rfl
      rw [he, ← h2] at h1
      exact hp0 (h1 ▸ hp)
    obtain ⟨G1, G2, G3⟩ := handle_decrypt env hf key hk w p0 hsel0
    obtain ⟨I1, I2, I3⟩ := decLoop_spec env hf key hk l (handle env key true w p0) hnd hsel'
      hov' q
    rw [workerLoop_cons]
    refine ⟨?_, ?_, ?_⟩
    · intro hq
      rcases List.mem_cons.mp hq with rfl | hq
      · rw [I3 hp0 hB]
        exact G2
      · rw [I1 hq, G1 q (fun h => hp0 (h ▸ hq)) (hA q hq)]
    · intro p hp hqe
      rcases List.mem_cons.mp hp with rfl | hp
      · have hql : q ∉ l := fun hq => hA q hq hqe
        have hqo : ∀ p' ∈ l, q ≠ TrimSuffix p' ".enc" :=
          fun p' hp' he => hC p' hp' (he.symm.trans hqe)
        rw [I3 hql hqo, hqe]
        exact G3
      · have hpne : p ≠ p0 := fun h => hp0 (h ▸ hp)
        rw [I2 p hp hqe, G1 p hpne (hA p hp), G1 q (hqe ▸ (hB p hp).symm) (hqe ▸ hC p hp)]
    · intro hq hqo
      rw [I3 (fun h => hq (List.mem_cons_of_mem _ h))
        (fun p hp => hqo p (List.mem_cons_of_mem _ hp))]
      exact G1 q (fun h => hq (h ▸ List.mem_cons_self _ _)) (hqo p0 (List.mem_cons_self _ _))

theorem trimSuffix_ne_append (p : String) (h : HasSuffix p ".enc" = true) :
    TrimSuffix p ".enc" ≠ p ++ ".enc" := by
  intro he
  have h1 := congrArg (fun x => x.data.length) (append_trimSuffix p ".enc" h)
  rw [he] at h1
  simp [String.data_append] at h1

/-- In every environment without failures: when `p` ends in `.enc` and opens to `X`, and
`p + ".enc"` opens to a blob that itself opens to `Y`, the plaintext left at `p` without its
suffix is `X` when `p` is handled first and `Y` when it is handled second. -/
theorem decrypt_order_matters (env : Env) (hf : env.NoFaults) (key : Bytes) (hk : ValidKey key)
    (w : World) (p : String) (X Y Z : Bytes) (hp : HasSuffix p ".enc" = true)
    (h1 : plainOf (env.gcm key) (w.files p) = some X)
    (h2 : plainOf (env.gcm key) (w.files (p ++ ".enc")) = some Z)
    (h3 : plainOf (env.gcm key) (some Z) = some Y) :
    (workerLoop env key true [p, p ++ ".enc"] w).files (TrimSuffix p ".enc") = some X ∧
      (workerLoop env key true [p ++ ".enc", p] w).files (TrimSuffix p ".enc") = some Y := by
  have n1 : TrimSuffix p ".enc" ≠ p := trimSuffix_ne p hp
  have n2 : TrimSuffix p ".enc" ≠ p ++ ".enc" := trimSuffix_ne_append p hp
  have n3 : p ++ ".enc" ≠ p := append_enc_ne p
  have t : TrimSuffix (p ++ ".enc") ".enc" = p := trimSuffix_append p ".enc"
  constructor
  · obtain ⟨_, a2, _⟩ := decryptFile_step env w p key X (hf.read _) (hf.write _) (hf.remove _)
      hk h1
    have hb : plainOf (env.gcm key) ((decryptFile env w p key).2.files (p ++ ".enc"))
        = some Z := by
      rw [a2, setFile_other _ _ _ _ n3, setFile_other _ _ _ _ (Ne.symm n2)]
      exact h2
    obtain ⟨_, b2, _⟩ := decryptFile_step env (handle env key true w p) (p ++ ".enc") key Z
      (hf.read _) (hf.write _) (hf.remove _) hk (by rw [handle_files]; exact hb)
    rw [workerLoop_cons, workerLoop_cons, workerLoop, handle_files]
    simp only [codec, if_true]
    rw [b2, t, setFile_other _ _ _ _ n2, setFile_other _ _ _ _ n1, handle_files]
    simp only [codec, if_true]
    rw [a2, setFile_other _ _ _ _ n1, setFile_same]
  · obtain ⟨_, a2, _⟩ := decryptFile_step env w (p ++ ".enc") key Z (hf.read _) (hf.write _)
      (hf.remove _) hk h2
    rw [t] at a2
    have hb : plainOf (env.gcm key) ((decryptFile env w (p ++ ".enc") key).2.files p)
        = some Y := by
      rw [a2, setFile_other _ _ _ _ (Ne.symm n3), setFile_same]
      exact h3
    obtain ⟨_, b2, _⟩ := decryptFile_step env (handle env key true w (p ++ ".enc")) p key Y
      (hf.read _) (hf.write _) (hf.remove _) hk (by rw [handle_files]; exact hb)
    rw [workerLoop_cons, workerLoop_cons, workerLoop, handle_files]
    simp only [codec, if_true]
    rw [b2, setFile_other _ _ _ _ n1, setFile_same]

/-! ## The steps of the codec, one failure at a time -/

theorem readFile_error (env : Env) (w : World) (p : String) (e : Error)
    (h : (ReadFile env w p).1 = .error e) :
    e = .read p ∧ ReadFile env w p = (.error (.read p), w.log (.readFile p false)) := by
  unfold ReadFile at h ⊢
  rcases hf : w.files p with _ | P <;> rcases hr : env.readFails p <;>
    simp_all

theorem readFile_ok (env : Env) (w : World) (p : String) (P : Bytes)
    (h : (ReadFile env w p).1 = .ok P) :
    w.files p = some P ∧ env.readFails p = false := by
  unfold ReadFile at h
  rcases hf : w.files p with _ | P' <;> rcases hr : env.readFails p <;>
    simp_all

theorem readFile_entropy (env : Env) (w : World) (p : String) :
    (ReadFile env w p).2.entropy = w.entropy := by
  unfold ReadFile
  rcases w.files p with _ | P <;> rcases env.readFails p <;> rfl

theorem newCipher_inv (key block : Bytes) (h : NewCipher key = .ok block) :
    key = block ∧ ValidKey key := by
  unfold NewCipher at h
  by_cases hk : key.length = 16 ∨ key.length = 24 ∨ key.length = 32
  · rw [if_pos hk] at h
    exact ⟨Except.ok.inj h, hk⟩
  · rw [if_neg hk] at h
    cases h

theorem newCipher_error (key : Bytes) (e : Error) (h : NewCipher key = .error e) :
    ¬ ValidKey key ∧ e = .keySize key.length := by
  unfold NewCipher at h
  by_cases hk : key.length = 16 ∨ key.length = 24 ∨ key.length = 32
  · rw [if_pos hk] at h
    cases h
  · rw [if_neg hk] at h
    exact ⟨hk, (Except.error.inj h).symm⟩

theorem readFull_error (w : World) (n : Nat) (e : Error) (h : (ReadFull w n).1 = .error e) :
    e = .entropy ∧ ¬ n ≤ w.entropy.length := by
  unfold ReadFull at h
  by_cases hn : n ≤ w.entropy.length
  · rw [if_pos hn] at h
    cases h
  · rw [if_neg hn] at h
    exact ⟨(Except.error.inj h).symm, hn⟩

theorem readFull_ok (w : World) (n : Nat) (nonce : Bytes) (h : (ReadFull w n).1 = .ok nonce) :
    nonce = w.entropy.take n ∧ n ≤ w.entropy.length := by
  unfold ReadFull at h
  by_cases hn : n ≤ w.entropy.length
  · rw [if_pos hn] at h
    exact ⟨(Except.ok.inj h).symm, hn⟩
  · rw [if_neg hn] at h
    cases h

theorem writeFile_error (env : Env) (w : World) (p : String) (data : Bytes) (e : Error)
    (h : (WriteFile env w p data).1 = some e) :
    e = .write p ∧ env.writeFault p ≠ none := by
  unfold WriteFile at h
  rcases hw : env.writeFault p with _ | (_ | n) <;> simp_all

theorem newCalls_append (w w' : World) (evs : List Event) (h : w'.trace = w.trace ++ evs) :
    newCalls w w' = evs := by
  unfold newCalls
  rw [h, List.drop_left]

/-! ## The claims -/

/-- C1. Round trip of the cipher transform. With the key derived from any passphrase, when
`encryptFile` can read `P`, draw a nonce and write its output, the file `path + ".enc"`
holds the blob of its seal step: the nonce drawn, followed by the payload sealed under that
nonce. Whatever world and path that blob is then found in, `decryptFile` with the same key
splits it at the nonce length into that nonce and that payload, its call of `Open`
succeeds (neither the too-short nor the authentication error is returned), and the
plaintext it writes is exactly `P`. -/
theorem c1_cipher_round_trip (env : Env) (hl : env.Lawful) (w : World) (path : String)
    (P : Bytes) (K : String) (hfile : w.files path = some P)
    (hread : env.readFails path = false)
    (hent : (env.gcm (createKeyHash env K)).NonceSize ≤ w.entropy.length)
    (hwrite : env.writeFault (path ++ ".enc") = none) :
    (encryptFile env w path (createKeyHash env K)).2.files (path ++ ".enc")
        = some (w.entropy.take (env.gcm (createKeyHash env K)).NonceSize
            ++ (env.gcm (createKeyHash env K)).sealRaw
              (w.entropy.take (env.gcm (createKeyHash env K)).NonceSize) P []) ∧
      ∀ (v : World) (q : String) (blob : Bytes),
        (encryptFile env w path (createKeyHash env K)).2.files (path ++ ".enc") = some blob →
        v.files q = some blob → env.readFails q = false →
        blob.take (env.gcm (createKeyHash env K)).NonceSize
            = w.entropy.take (env.gcm (createKeyHash env K)).NonceSize ∧
          blob.drop (env.gcm (createKeyHash env K)).NonceSize
            = (env.gcm (createKeyHash env K)).sealRaw
              (w.entropy.take (env.gcm (createKeyHash env K)).NonceSize) P [] ∧
          (∃ rest, (decryptFile env v q (createKeyHash env K)).2.trace
            = v.trace ++ .readFile q true :: .openCall true :: rest) ∧
          (decryptFile env v q (createKeyHash env K)).1 ≠ some .tooShort ∧
          (decryptFile env v q (createKeyHash env K)).1 ≠ some .auth ∧
          (env.writeFault (TrimSuffix q ".enc") = none → HasSuffix q ".enc" = true →
            (decryptFile env v q (createKeyHash env K)).2.files (TrimSuffix q ".enc")
              = some P) := by
  have hk := validKey_createKeyHash env hl K
  have hlen := take_entropy_length w _ hent
  have hblob : (encryptFile env w path (createKeyHash env K)).2.files (path ++ ".enc")
      = some (w.entropy.take (env.gcm (createKeyHash env K)).NonceSize
          ++ (env.gcm (createKeyHash env K)).sealRaw
            (w.entropy.take (env.gcm (createKeyHash env K)).NonceSize) P []) := by
    rcases hd : env.removeFails path <;>
    simp [encryptFile, ReadFile, NewGCM, ReadFull, WriteFile, Remove, AEAD.Seal,
      newCipher_ok _ hk, hfile, hread, hent, hwrite, hd, setFile_other, append_enc_ne,
      Ne.symm (append_enc_ne path)]
  refine ⟨hblob, ?_⟩
  intro v q blob hb hv hrq
  rw [hblob] at hb
  have hb' := (Option.some.inj hb).symm
  have hop := opens_seal env hl (createKeyHash env K) _ P hk hlen
  unfold AEAD.Seal at hop
  rw [← hb'] at hop
  obtain ⟨h1, h2⟩ := hop
  have htake : blob.take (env.gcm (createKeyHash env K)).NonceSize
      = w.entropy.take (env.gcm (createKeyHash env K)).NonceSize := by
    rw [hb']
    exact List.take_left' hlen
  have hdrop : blob.drop (env.gcm (createKeyHash env K)).NonceSize
      = (env.gcm (createKeyHash env K)).sealRaw
        (w.entropy.take (env.gcm (createKeyHash env K)).NonceSize) P [] := by
    rw [hb']
    exact List.drop_left' hlen
  refine ⟨htake, hdrop, ?_⟩
  have hex : ∃ c, setFile v.files (TrimSuffix q ".enc") (some P) q = some c := by
    by_cases hp : q = TrimSuffix q ".enc"
    · exact ⟨P, by rw [← hp, setFile_same]⟩
    · exact ⟨blob, by rw [setFile_other _ _ _ _ hp, hv]⟩
  obtain ⟨c, hc⟩ := hex
  rcases hw : env.writeFault (TrimSuffix q ".enc") with _ | (_ | n)
  · rcases hd : env.removeFails q
    · simp [decryptFile, ReadFile, NewGCM, WriteFile, Remove, newCipher_ok _ hk, hv, hrq, h1,
        h2, hw, hd, hc]
      intro hs
      rw [setFile_other _ _ _ _ (trimSuffix_ne q hs), setFile_same]
    · simp [decryptFile, ReadFile, NewGCM, WriteFile, Remove, newCipher_ok _ hk, hv, hrq, h1,
        h2, hw, hd, hc]
  · simp [decryptFile, ReadFile, NewGCM, WriteFile, newCipher_ok _ hk, hv, hrq, h1, h2, hw]
  · simp [decryptFile, ReadFile, NewGCM, WriteFile, newCipher_ok _ hk, hv, hrq, h1, h2, hw]

theorem c1_cipher_round_trip_witness :
    (encryptFile demoEnv noteWorld "note.txt" (createKeyHash demoEnv "mykey")).2.files
        ("note.txt" ++ ".enc") = some (demoBlob (bytesOf "hello world")) ∧
      (decryptFile demoEnv copyWorld "copy.enc" (createKeyHash demoEnv "mykey")).2.files
        (TrimSuffix "copy.enc" ".enc") = some (bytesOf "hello world") :=
  ⟨(c1_cipher_round_trip demoEnv demoEnv_lawful noteWorld "note.txt" (bytesOf "hello world")
      "mykey" (by decide) (by decide) (by decide) (by decide)).1,
    ((c1_cipher_round_trip demoEnv demoEnv_lawful noteWorld "note.txt" (bytesOf "hello world")
      "mykey" (by decide) (by decide) (by decide) (by decide)).2 copyWorld "copy.enc"
      (demoBlob (bytesOf "hello world")) (by decide) (by decide) (by decide)).2.2.2.2.2
      (by decide) (by decide)⟩

/-- C2. Truncation: for a key the cipher accepts and a file whose content is shorter than
the nonce, `decryptFile` returns the error "ciphertext too short", which is not the
authentication error; the only call it has made is the read, so the blob was never opened,
no file was written and none deleted. -/
theorem c2_truncated_blob (env : Env) (w : World) (path : String) (key blob : Bytes)
    (hkey : ValidKey key) (hfile : w.files path = some blob)
    (hread : env.readFails path = false) (hlen : blob.length < (env.gcm key).NonceSize) :
    (decryptFile env w path key).1 = some .tooShort ∧
      (decryptFile env w path key).1 ≠ some .auth ∧
      (decryptFile env w path key).2.trace = w.trace ++ [.readFile path true] ∧
      (decryptFile env w path key).2.files = w.files := by
  have h : decryptFile env w path key = (some .tooShort, w.log (.readFile path true)) := by
    simp [decryptFile, ReadFile, NewGCM, newCipher_ok key hkey, hfile, hread, hlen]
  rw [h]
  simp

theorem c2_truncated_blob_witness :
    (decryptFile demoEnv shortWorld "short.enc" demoKey).1 = some .tooShort ∧
      (decryptFile demoEnv shortWorld "short.enc" demoKey).1 ≠ some .auth ∧
      (decryptFile demoEnv shortWorld "short.enc" demoKey).2.trace
        = shortWorld.trace ++ [.readFile "short.enc" true] ∧
      (decryptFile demoEnv shortWorld "short.enc" demoKey).2.files = shortWorld.files :=
  c2_truncated_blob demoEnv shortWorld "short.enc" demoKey [1, 2, 3] (by decide) (by decide)
    (by decide) (by decide)

/-- C3, as amended. Filtering: in either mode the paths the producer sends are, in walk
order, among the non-directory paths of the tree that end in `.txt` or `.md` (encrypt mode)
or in `.enc` (decrypt mode), so no other file and no directory is ever sent; and on a tree
every path of which can be accessed they are exactly those paths. -/
theorem c3_filtering (dir : Entry) :
    List.Sublist (producer dir false).sent
        (dir.nonDirs.filter (fun p => HasSuffix p ".txt" || HasSuffix p ".md")) ∧
      List.Sublist (producer dir true).sent (dir.nonDirs.filter (fun p => HasSuffix p ".enc")) ∧
      (dir.accessible = true →
        (producer dir false).sent
            = dir.nonDirs.filter (fun p => HasSuffix p ".txt" || HasSuffix p ".md") ∧
          (producer dir true).sent = dir.nonDirs.filter (fun p => HasSuffix p ".enc")) := by
  have he : ∀ d, (producer dir d).sent.Sublist (dir.nonDirs.filter (selects d)) := by
    intro d
    rw [producer_sent, ← visits_selected]
    exact (List.takeWhile_sublist _).filterMap _
  have ha : ∀ d, dir.accessible = true → (producer dir d).sent = dir.nonDirs.filter (selects d) := by
    intro d h
    rw [producer_sent, takeWhile_accessible dir h, visits_selected]
  have h0 : selects false = fun p => HasSuffix p ".txt" || HasSuffix p ".md" := by
    funext p
    simp [selects]
  have h1 : selects true = fun p => HasSuffix p ".enc" := by
    funext p
    simp [selects]
  rw [← h0, ← h1]
  exact ⟨he false, he true, fun h => ⟨ha false h, ha true h⟩⟩

theorem c3_filtering_witness :
    (producer (.dir "." [.file "a.txt", .file "b.md", .file "c.enc", .file "d.bin"]) false).sent
        = ["a.txt", "b.md"] ∧
      (producer (.dir "." [.file "a.txt.enc", .file "b.bin"]) true).sent = ["a.txt.enc"] :=
  ⟨((c3_filtering (.dir "." [.file "a.txt", .file "b.md", .file "c.enc", .file "d.bin"])).2.2
      (by decide)).1.trans (by decide),
    ((c3_filtering (.dir "." [.file "a.txt.enc", .file "b.bin"])).2.2 (by decide)).2.trans
      (by decide)⟩

/-- C3, refuted as stated. In the tree with the file `a.txt`, the directory `b` whose
listing cannot be read and the file `c.md`, the non-directory paths ending in `.txt` or
`.md` are `a.txt` and `c.md`, yet in encrypt mode the producer sends `a.txt` alone: the
walk has ended at `b`. In decrypt mode the same happens to `c.enc` behind `b`. -/
theorem c3_counterexample :
    ((Entry.dir "." [.file "a.txt", .unlistable "b", .file "c.md"]).nonDirs.filter
        (fun p => HasSuffix p ".txt" || HasSuffix p ".md")) = ["a.txt", "c.md"] ∧
      (producer (.dir "." [.file "a.txt", .unlistable "b", .file "c.md"]) false).sent
        = ["a.txt"] ∧
      ((Entry.dir "." [.file "a.enc", .unlistable "b", .file "c.enc"]).nonDirs.filter
        (fun p => HasSuffix p ".enc")) = ["a.enc", "c.enc"] ∧
      (producer (.dir "." [.file "a.enc", .unlistable "b", .file "c.enc"]) true).sent
        = ["a.enc"] := by
  decide

/-- C4. Result of a successful `encryptFile`: when the file at `path` holds `P` and the call
succeeds, `path + ".enc"` holds the nonce drawn (the next `NonceSize` random bytes)
followed by the sealed payload and nothing else, so its length is
`NonceSize + len(P) + Overhead` and its first `NonceSize` bytes are the nonce; the file at
`path` no longer exists. -/
theorem c4_encrypt_result (env : Env) (hl : env.Lawful) (w : World) (path : String)
    (key P : Bytes) (hfile : w.files path = some P)
    (hok : (encryptFile env w path key).1 = none) :
    ∃ nonce blob, nonce = w.entropy.take (env.gcm key).NonceSize ∧
      nonce.length = (env.gcm key).NonceSize ∧
      blob = nonce ++ (env.gcm key).sealRaw nonce P [] ∧
      (encryptFile env w path key).2.files (path ++ ".enc") = some blob ∧
      blob.length = (env.gcm key).NonceSize + P.length + (env.gcm key).Overhead ∧
      blob.take (env.gcm key).NonceSize = nonce ∧
      (encryptFile env w path key).2.files path = none := by
  obtain ⟨_, hk, hn, _, _, hfiles⟩ := encryptFile_ok_inv env w path key P hfile hok
  have hlen : (w.entropy.take (env.gcm key).NonceSize).length = (env.gcm key).NonceSize := by
    rw [List.length_take]
    omega
  refine ⟨_, _, rfl, hlen, rfl, ?_, ?_, ?_, ?_⟩
  · rw [hfiles, setFile_other _ _ _ _ (append_enc_ne path), setFile_same]
    rfl
  · rw [List.length_append, hlen, hl.seal_length _ _ _ hk]
    omega
  · exact List.take_left' hlen
  · rw [hfiles, setFile_same]

theorem c4_encrypt_result_witness :
    ∃ nonce blob, nonce = noteWorld.entropy.take (demoEnv.gcm demoKey).NonceSize ∧
      nonce.length = (demoEnv.gcm demoKey).NonceSize ∧
      blob = nonce ++ (demoEnv.gcm demoKey).sealRaw nonce (bytesOf "hello world") [] ∧
      (encryptFile demoEnv noteWorld "note.txt" demoKey).2.files ("note.txt" ++ ".enc")
        = some blob ∧
      blob.length = (demoEnv.gcm demoKey).NonceSize + (bytesOf "hello world").length
        + (demoEnv.gcm demoKey).Overhead ∧
      blob.take (demoEnv.gcm demoKey).NonceSize = nonce ∧
      (encryptFile demoEnv noteWorld "note.txt" demoKey).2.files "note.txt" = none :=
  c4_encrypt_result demoEnv demoEnv_lawful noteWorld "note.txt" demoKey (bytesOf "hello world")
    (by decide) (by decide)

/-- C5. File-level round trip: when the file at `path` holds `P`, the key is derived from a
passphrase and neither the operating system nor the random source fails, `encryptFile` on
`path` followed by `decryptFile` on `path + ".enc"` both succeed; afterwards `path` holds
exactly `P`, `path + ".enc"` does not exist, every other file is as before, and the output
path of `decryptFile`, the input path with `.enc` stripped, is `path`. -/
theorem c5_file_round_trip (env : Env) (hl : env.Lawful) (hf : env.NoFaults) (w : World)
    (path : String) (P : Bytes) (K : String) (hfile : w.files path = some P)
    (hent : (env.gcm (createKeyHash env K)).NonceSize ≤ w.entropy.length) :
    (encryptFile env w path (createKeyHash env K)).1 = none ∧
      (decryptFile env (encryptFile env w path (createKeyHash env K)).2 (path ++ ".enc")
        (createKeyHash env K)).1 = none ∧
      (decryptFile env (encryptFile env w path (createKeyHash env K)).2 (path ++ ".enc")
        (createKeyHash env K)).2.files path = some P ∧
      (decryptFile env (encryptFile env w path (createKeyHash env K)).2 (path ++ ".enc")
        (createKeyHash env K)).2.files (path ++ ".enc") = none ∧
      (∀ q, q ≠ path → q ≠ path ++ ".enc" →
        (decryptFile env (encryptFile env w path (createKeyHash env K)).2 (path ++ ".enc")
          (createKeyHash env K)).2.files q = w.files q) ∧
      TrimSuffix (path ++ ".enc") ".enc" = path := by
  have hk := validKey_createKeyHash env hl K
  obtain ⟨e1, e2, _⟩ := encryptFile_step env w path _ P (hf.read _) (hf.write _) (hf.remove _)
    hk hent hfile
  have hblob : (encryptFile env w path (createKeyHash env K)).2.files (path ++ ".enc") =
      some ((env.gcm (createKeyHash env K)).Seal
        (w.entropy.take (env.gcm (createKeyHash env K)).NonceSize)
        (w.entropy.take (env.gcm (createKeyHash env K)).NonceSize) P []) := by
    rw [e2, setFile_other _ _ _ _ (append_enc_ne path), setFile_same]
  have hopen : plainOf (env.gcm (createKeyHash env K))
      ((encryptFile env w path (createKeyHash env K)).2.files (path ++ ".enc")) = some P := by
    rw [hblob]
    exact (opens_iff _ _ _).mp (opens_seal env hl _ _ P hk (take_entropy_length w _ hent))
  obtain ⟨d1, d2, _⟩ := decryptFile_step env _ (path ++ ".enc") _ P (hf.read _) (hf.write _)
    (hf.remove _) hk hopen
  rw [trimSuffix_append] at d2
  refine ⟨e1, d1, ?_, ?_, ?_, trimSuffix_append _ _⟩
  · rw [d2, setFile_other _ _ _ _ (Ne.symm (append_enc_ne path)), setFile_same]
  · rw [d2, setFile_same]
  · intro q h1 h2
    rw [d2, setFile_other _ _ _ _ h2, setFile_other _ _ _ _ h1, e2, setFile_other _ _ _ _ h1,
      setFile_other _ _ _ _ h2]

theorem c5_file_round_trip_witness :
    (encryptFile demoEnv noteWorld "note.txt" (createKeyHash demoEnv "mykey")).1 = none ∧
      (decryptFile demoEnv
        (encryptFile demoEnv noteWorld "note.txt" (createKeyHash demoEnv "mykey")).2
        ("note.txt" ++ ".enc") (createKeyHash demoEnv "mykey")).1 = none ∧
      (decryptFile demoEnv
        (encryptFile demoEnv noteWorld "note.txt" (createKeyHash demoEnv "mykey")).2
        ("note.txt" ++ ".enc") (createKeyHash demoEnv "mykey")).2.files "note.txt"
        = some (bytesOf "hello world") ∧
      (decryptFile demoEnv
        (encryptFile demoEnv noteWorld "note.txt" (createKeyHash demoEnv "mykey")).2
        ("note.txt" ++ ".enc") (createKeyHash demoEnv "mykey")).2.files ("note.txt" ++ ".enc")
        = none ∧
      (∀ q, q ≠ "note.txt" → q ≠ "note.txt" ++ ".enc" →
        (decryptFile demoEnv
          (encryptFile demoEnv noteWorld "note.txt" (createKeyHash demoEnv "mykey")).2
          ("note.txt" ++ ".enc") (createKeyHash demoEnv "mykey")).2.files q
          = noteWorld.files q) ∧
      TrimSuffix ("note.txt" ++ ".enc") ".enc" = "note.txt" :=
  c5_file_round_trip demoEnv demoEnv_lawful demoEnv_noFaults noteWorld "note.txt"
    (bytesOf "hello world") "mykey" (by decide) (by decide)

/-- C6. Delete is the last action. For `encryptFile` on every world, path and key, and for
`decryptFile` on every world, key and path ending in `.enc` (the paths the producer sends
in decrypt mode): if the read fails, or a step of the cipher transform fails (the key is
refused, no nonce can be drawn, the blob is too short, authentication fails), or the write
fails, the operation returns the error of that step, has made no remove call, and the file
at `path` is as before. A remove call is made only as the last call, on the input path,
directly after a successful write of the output path. -/
theorem c6_delete_last (env : Env) (w : World) (key : Bytes) :
    (∀ path,
      (encryptFile env w path key).2.trace
          = w.trace ++ newCalls w (encryptFile env w path key).2 ∧
      (∀ q b, Event.remove q b ∈ newCalls w (encryptFile env w path key).2 → q = path ∧
        (newCalls w (encryptFile env w path key).2).getLast? = some (.remove path b) ∧
        (newCalls w (encryptFile env w path key).2).dropLast.getLast?
          = some (.writeFile (path ++ ".enc") true)) ∧
      (∀ e, (ReadFile env w path).1 = .error e →
        AbortedWith w path (encryptFile env w path key) e) ∧
      (∀ P e, (ReadFile env w path).1 = .ok P → NewCipher key = .error e →
        AbortedWith w path (encryptFile env w path key) e) ∧
      (∀ P block e, (ReadFile env w path).1 = .ok P → NewCipher key = .ok block →
        (ReadFull (ReadFile env w path).2 (env.gcm block).NonceSize).1 = .error e →
        AbortedWith w path (encryptFile env w path key) e) ∧
      (∀ P block nonce v e, (ReadFile env w path).1 = .ok P → NewCipher key = .ok block →
        (ReadFull (ReadFile env w path).2 (env.gcm block).NonceSize).1 = .ok nonce →
        (WriteFile env v (path ++ ".enc") ((env.gcm block).Seal nonce nonce P [])).1 = some e →
        AbortedWith w path (encryptFile env w path key) e)) ∧
    (∀ path, HasSuffix path ".enc" = true →
      (decryptFile env w path key).2.trace
          = w.trace ++ newCalls w (decryptFile env w path key).2 ∧
      (∀ q b, Event.remove q b ∈ newCalls w (decryptFile env w path key).2 → q = path ∧
        (newCalls w (decryptFile env w path key).2).getLast? = some (.remove path b) ∧
        (newCalls w (decryptFile env w path key).2).dropLast.getLast?
          = some (.writeFile (TrimSuffix path ".enc") true)) ∧
      (∀ e, (ReadFile env w path).1 = .error e →
        AbortedWith w path (decryptFile env w path key) e) ∧
      (∀ blob e, (ReadFile env w path).1 = .ok blob → NewCipher key = .error e →
        AbortedWith w path (decryptFile env w path key) e) ∧
      (∀ blob block, (ReadFile env w path).1 = .ok blob → NewCipher key = .ok block →
        blob.length < (env.gcm block).NonceSize →
        AbortedWith w path (decryptFile env w path key) .tooShort) ∧
      (∀ blob block e, (ReadFile env w path).1 = .ok blob → NewCipher key = .ok block →
        ¬ blob.length < (env.gcm block).NonceSize →
        (env.gcm block).Open [] (blob.take (env.gcm block).NonceSize)
          (blob.drop (env.gcm block).NonceSize) [] = .error e →
        AbortedWith w path (decryptFile env w path key) e) ∧
      (∀ blob block P v e, (ReadFile env w path).1 = .ok blob → NewCipher key = .ok block →
        ¬ blob.length < (env.gcm block).NonceSize →
        (env.gcm block).Open [] (blob.take (env.gcm block).NonceSize)
          (blob.drop (env.gcm block).NonceSize) [] = .ok P →
        (WriteFile env v (TrimSuffix path ".enc") P).1 = some e →
        AbortedWith w path (decryptFile env w path key) e)) := by
  constructor
  · intro path
    have hcalls : ∀ evs, (encryptFile env w path key).2.trace = w.trace ++ evs →
        newCalls w (encryptFile env w path key).2 = evs := newCalls_append w _
    refine ⟨?_, ?_, ?_, ?_, ?_, ?_⟩
    · rcases encryptFile_cases env w path key with h | h | h | h | ⟨P, b, _, h⟩ <;>
        rw [hcalls _ h.2.2, h.2.2]
    · rcases encryptFile_cases env w path key with h | h | h | h | ⟨P, b, _, h⟩ <;>
        rw [hcalls _ h.2.2] <;> simp
    · intro e he
      obtain ⟨rfl, hrd⟩ := readFile_error env w path e he
      have hres : encryptFile env w path key
          = (some (.read path), w.log (.readFile path false)) := by
        simp [encryptFile, hrd]
      refine ⟨by rw [hres], ?_, by rw [hres]; rfl⟩
      rw [hcalls [.readFile path false] (by rw [hres]; rfl)]
      simp
    · intro P e hP he
      obtain ⟨hf, hr⟩ := readFile_ok env w path P hP
      obtain ⟨hk, rfl⟩ := newCipher_error key e he
      have hres : encryptFile env w path key
          = (some (.keySize key.length), w.log (.readFile path true)) := by
        simp [encryptFile, ReadFile, hf, hr, he]
      refine ⟨by rw [hres], ?_, by rw [hres]; rfl⟩
      rw [hcalls [.readFile path true] (by rw [hres]; rfl)]
      simp
    · intro P block e hP hb he
      obtain ⟨hf, hr⟩ := readFile_ok env w path P hP
      obtain ⟨rfl, hk⟩ := newCipher_inv key block hb
      obtain ⟨rfl, hn⟩ := readFull_error _ _ e he
      rw [readFile_entropy] at hn
      have hres : (encryptFile env w path key).1 = some .entropy ∧
          (encryptFile env w path key).2.files = w.files ∧
          (encryptFile env w path key).2.trace
            = w.trace ++ [.readFile path true, .randRead false] := by
        simp [encryptFile, ReadFile, NewGCM, ReadFull, hf, hr, hb, hn]
      refine ⟨hres.1, ?_, by rw [hres.2.1]⟩
      rw [hcalls _ hres.2.2]
      simp
    · intro P block nonce v e hP hb hnonce he
      obtain ⟨hf, hr⟩ := readFile_ok env w path P hP
      obtain ⟨rfl, hk⟩ := newCipher_inv key block hb
      obtain ⟨rfl, hn⟩ := readFull_ok _ _ nonce hnonce
      rw [readFile_entropy] at hn
      obtain ⟨rfl, hw⟩ := writeFile_error env v _ _ e he
      have hres : (encryptFile env w path key).1 = some (.write (path ++ ".enc")) ∧
          (encryptFile env w path key).2.files path = w.files path ∧
          (encryptFile env w path key).2.trace = w.trace ++
            [.readFile path true, .randRead true, .sealCall,
              .writeFile (path ++ ".enc") false] := by
        rcases hwf : env.writeFault (path ++ ".enc") with _ | (_ | n)
        · exact absurd hwf hw
        · simp [encryptFile, ReadFile, NewGCM, ReadFull, WriteFile, hf, hr, hb, hn, hwf]
        · simp [encryptFile, ReadFile, NewGCM, ReadFull, WriteFile, hf, hr, hb, hn, hwf,
            setFile_other, Ne.symm (append_enc_ne path)]
      refine ⟨hres.1, ?_, hres.2.1⟩
      rw [hcalls _ hres.2.2]
      simp
  · intro path hs
    have hne : path ≠ TrimSuffix path ".enc" := Ne.symm (trimSuffix_ne path hs)
    have hcalls : ∀ evs, (decryptFile env w path key).2.trace = w.trace ++ evs →
        newCalls w (decryptFile env w path key).2 = evs := newCalls_append w _
    refine ⟨?_, ?_, ?_, ?_, ?_, ?_, ?_⟩
    · rcases decryptFile_cases env w path key with h | h | h | h | h | ⟨P, b, _, h⟩ <;>
        rw [hcalls _ h.2.2, h.2.2]
    · rcases decryptFile_cases env w path key with h | h | h | h | h | ⟨P, b, _, h⟩ <;>
        rw [hcalls _ h.2.2] <;> simp
    · intro e he
      obtain ⟨rfl, hrd⟩ := readFile_error env w path e he
      have hres : decryptFile env w path key
          = (some (.read path), w.log (.readFile path false)) := by
        simp [decryptFile, hrd]
      refine ⟨by rw [hres], ?_, by rw [hres]; rfl⟩
      rw [hcalls [.readFile path false] (by rw [hres]; rfl)]
      simp
    · intro blob e hP he
      obtain ⟨hf, hr⟩ := readFile_ok env w path blob hP
      obtain ⟨hk, rfl⟩ := newCipher_error key e he
      have hres : decryptFile env w path key
          = (some (.keySize key.length), w.log (.readFile path true)) := by
        simp [decryptFile, ReadFile, hf, hr, he]
      refine ⟨by rw [hres], ?_, by rw [hres]; rfl⟩
      rw [hcalls [.readFile path true] (by rw [hres]; rfl)]
      simp
    · intro blob block hP hb hlen
      obtain ⟨hf, hr⟩ := readFile_ok env w path blob hP
      obtain ⟨rfl, hk⟩ := newCipher_inv key block hb
      have hres : decryptFile env w path key
          = (some .tooShort, w.log (.readFile path true)) := by
        simp [decryptFile, ReadFile, NewGCM, hf, hr, hb, hlen]
      refine ⟨by rw [hres], ?_, by rw [hres]; rfl⟩
      rw [hcalls [.readFile path true] (by rw [hres]; rfl)]
      simp
    · intro blob block e hP hb hlen ho
      obtain ⟨hf, hr⟩ := readFile_ok env w path blob hP
      obtain ⟨rfl, hk⟩ := newCipher_inv key block hb
      have hres : decryptFile env w path key
          = (some e, (w.log (.readFile path true)).log (.openCall false)) := by
        simp [decryptFile, ReadFile, NewGCM, hf, hr, hb, hlen, ho]
      refine ⟨by rw [hres], ?_, by rw [hres]; rfl⟩
      rw [hcalls [.readFile path true, .openCall false] (by rw [hres]; simp)]
      simp
    · intro blob block P v e hP hb hlen ho he
      obtain ⟨hf, hr⟩ := readFile_ok env w path blob hP
      obtain ⟨rfl, hk⟩ := newCipher_inv key block hb
      obtain ⟨rfl, hw⟩ := writeFile_error env v _ _ e he
      have hres : (decryptFile env w path key).1 = some (.write (TrimSuffix path ".enc")) ∧
          (decryptFile env w path key).2.files path = w.files path ∧
          (decryptFile env w path key).2.trace = w.trace ++
            [.readFile path true, .openCall true,
              .writeFile (TrimSuffix path ".enc") false] := by
        rcases hwf : env.writeFault (TrimSuffix path ".enc") with _ | (_ | n)
        · exact absurd hwf hw
        · simp [decryptFile, ReadFile, NewGCM, WriteFile, hf, hr, hb, hlen, ho, hwf]
        · simp [decryptFile, ReadFile, NewGCM, WriteFile, hf, hr, hb, hlen, ho, hwf,
            setFile_other, hne]
      refine ⟨hres.1, ?_, hres.2.1⟩
      rw [hcalls _ hres.2.2]
      simp

theorem c6_delete_last_witness :
    AbortedWith noteWorld "note.txt"
        (encryptFile (shortWriteEnv "note.txt.enc") noteWorld "note.txt" demoKey)
        (.write "note.txt.enc") ∧
      AbortedWith mixedWorld "bad.enc" (decryptFile demoEnv mixedWorld "bad.enc" demoKey) .auth :=
  ⟨((c6_delete_last (shortWriteEnv "note.txt.enc") noteWorld demoKey).1 "note.txt").2.2.2.2.2
      (bytesOf "hello world") demoKey demoNonce noteWorld (.write "note.txt.enc") rfl rfl rfl
      (by decide),
    ((c6_delete_last demoEnv mixedWorld demoKey).2 "bad.enc" (by decide)).2.2.2.2.2.1
      (List.replicate 40 0) demoKey .auth rfl rfl (by decide) rfl⟩

/-- C7, as amended. When `encryptFile` or `decryptFile` returns an error of a step before
the write (read, key, nonce, too-short or authentication check), the files are exactly as
before the call. When the error is that of the write or of the final delete, every file
other than the output path is as before, but the output file may have been created or
changed; after a failed delete it holds the complete output. -/
theorem c7_failed_call (env : Env) (w : World) (path : String) (key : Bytes) :
    (∀ e, (encryptFile env w path key).1 = some e →
      ((∀ p, e ≠ .write p) → (∀ p, e ≠ .remove p) →
        (encryptFile env w path key).2.files = w.files) ∧
      (∀ q, q ≠ path ++ ".enc" → (encryptFile env w path key).2.files q = w.files q) ∧
      (∀ p, e = .remove p → ∃ P, w.files path = some P ∧
        (encryptFile env w path key).2.files (path ++ ".enc") =
          some ((env.gcm key).Seal (w.entropy.take (env.gcm key).NonceSize)
            (w.entropy.take (env.gcm key).NonceSize) P []))) ∧
    (∀ e, (decryptFile env w path key).1 = some e →
      ((∀ p, e ≠ .write p) → (∀ p, e ≠ .remove p) →
        (decryptFile env w path key).2.files = w.files) ∧
      (∀ q, q ≠ TrimSuffix path ".enc" → (decryptFile env w path key).2.files q = w.files q) ∧
      (∀ p, e = .remove p → ∃ P, plainOf (env.gcm key) (w.files path) = some P ∧
        (decryptFile env w path key).2.files (TrimSuffix path ".enc") = some P)) := by
  constructor
  · intro e he
    rcases encryptFile_cases env w path key with h | h | h | h | ⟨P, b, hP, h⟩
    · obtain ⟨h1, h2, _⟩ := h
      rw [h1] at he
      cases he
      simp [h2]
    · obtain ⟨h1, h2, _⟩ := h
      rw [h1] at he
      cases he
      simp [h2]
    · obtain ⟨h1, h2, _⟩ := h
      rw [h1] at he
      cases he
      simp [h2]
    · obtain ⟨h1, h2, _⟩ := h
      rw [h1] at he
      cases he
      simp
      exact h2
    · obtain ⟨h1, h2, _⟩ := h
      rw [h1] at he
      cases b
      · cases he
        simp [h2, hP]
        intro q hq
        exact setFile_other _ _ _ _ hq
      · simp at he
  · intro e he
    rcases decryptFile_cases env w path key with h | h | h | h | h | ⟨P, b, hP, h⟩
    · obtain ⟨h1, h2, _⟩ := h
      rw [h1] at he
      cases he
      simp [h2]
    · obtain ⟨h1, h2, _⟩ := h
      rw [h1] at he
      cases he
      simp [h2]
    · obtain ⟨h1, h2, _⟩ := h
      rw [h1] at he
      cases he
      simp [h2]
    · obtain ⟨h1, h2, _⟩ := h
      rw [h1] at he
      cases he
      simp [h2]
    · obtain ⟨h1, h2, _⟩ := h
      rw [h1] at he
      cases he
      simp
      exact h2
    · obtain ⟨h1, h2, _⟩ := h
      rw [h1] at he
      cases b
      · cases he
        simp [h2, hP]
        intro q hq
        exact setFile_other _ _ _ _ hq
      · simp at he

theorem c7_failed_call_witness :
    (encryptFile (removeFailsEnv "note.txt") noteWorld "note.txt" demoKey).1
        = some (.remove "note.txt") ∧
    ((∀ e, (encryptFile (removeFailsEnv "note.txt") noteWorld "note.txt" demoKey).1 = some e →
        ((∀ p, e ≠ .write p) → (∀ p, e ≠ .remove p) →
          (encryptFile (removeFailsEnv "note.txt") noteWorld "note.txt" demoKey).2.files
            = noteWorld.files) ∧
        (∀ q, q ≠ "note.txt" ++ ".enc" →
          (encryptFile (removeFailsEnv "note.txt") noteWorld "note.txt" demoKey).2.files q
            = noteWorld.files q) ∧
        (∀ p, e = .remove p → ∃ P, noteWorld.files "note.txt" = some P ∧
          (encryptFile (removeFailsEnv "note.txt") noteWorld "note.txt" demoKey).2.files
              ("note.txt" ++ ".enc") =
            some (((removeFailsEnv "note.txt").gcm demoKey).Seal
              (noteWorld.entropy.take ((removeFailsEnv "note.txt").gcm demoKey).NonceSize)
              (noteWorld.entropy.take ((removeFailsEnv "note.txt").gcm demoKey).NonceSize)
              P []))) ∧
      (∀ e, (decryptFile (removeFailsEnv "note.txt") noteWorld "note.txt" demoKey).1 = some e →
        ((∀ p, e ≠ .write p) → (∀ p, e ≠ .remove p) →
          (decryptFile (removeFailsEnv "note.txt") noteWorld "note.txt" demoKey).2.files
            = noteWorld.files) ∧
        (∀ q, q ≠ TrimSuffix "note.txt" ".enc" →
          (decryptFile (removeFailsEnv "note.txt") noteWorld "note.txt" demoKey).2.files q
            = noteWorld.files q) ∧
        (∀ p, e = .remove p → ∃ P,
          plainOf ((removeFailsEnv "note.txt").gcm demoKey) (noteWorld.files "note.txt")
            = some P ∧
          (decryptFile (removeFailsEnv "note.txt") noteWorld "note.txt" demoKey).2.files
            (TrimSuffix "note.txt" ".enc") = some P))) :=
  ⟨by decide, c7_failed_call (removeFailsEnv "note.txt") noteWorld "note.txt" demoKey⟩

/-- C7, refuted as stated. When the final delete of `encryptFile` fails, the call returns
that error although the output file `note.txt.enc`, absent before the call, has been
written. -/
theorem c7_counterexample :
    noteWorld.files "note.txt.enc" = none ∧
      (encryptFile (removeFailsEnv "note.txt") noteWorld "note.txt" demoKey).1
        = some (.remove "note.txt") ∧
      (encryptFile (removeFailsEnv "note.txt") noteWorld "note.txt" demoKey).2.files
        "note.txt.enc" = some (demoBlob (bytesOf "hello world")) ∧
      (encryptFile (removeFailsEnv "note.txt") noteWorld "note.txt" demoKey).2.files "note.txt"
        = some (bytesOf "hello world") := by
  decide

/-- C8. File-local isolation: for every sequence of paths the worker receives, it prints
exactly one outcome line per path, in order, and makes exactly one codec call per path,
in order; whatever happened to the paths before, the loop goes on with the next path in
the world they left. Hence a later file that is valid and untouched by the earlier calls
is processed successfully (in decrypt mode: it opens under the key; in encrypt mode: it
exists and random bytes remain), and `main` ends with exit status 0 whenever the key was
given. -/
theorem c8_file_local_isolation (env : Env) (jobs : List String) (secret : String)
    (decrypt : Bool) (w : World) :
    (∃ lines, (worker env jobs secret decrypt w).stdout = w.stdout ++ lines ∧
      List.Forall₂ (fun p (l : Line) => l.reports p) jobs lines) ∧
    (∃ evs, (worker env jobs secret decrypt w).trace = w.trace ++ evs ∧
      codecCalls evs = jobs) ∧
    (∀ pre p post, jobs = pre ++ p :: post →
      worker env jobs secret decrypt w =
        worker env post secret decrypt
          (handle env (createKeyHash env secret) decrypt (worker env pre secret decrypt w) p)) ∧
    (env.Lawful → ∀ pre p post P, jobs = pre ++ p :: post → decrypt = true →
      (∀ q ∈ pre, p ∉ footprint true q) →
      plainOf (env.gcm (createKeyHash env secret)) (w.files p) = some P →
      env.readFails p = false → env.writeFault (TrimSuffix p ".enc") = none →
      env.removeFails p = false →
      (worker env (pre ++ [p]) secret decrypt w).stdout
          = (worker env pre secret decrypt w).stdout ++ [.succeeded p] ∧
        (worker env (pre ++ [p]) secret decrypt w).files
          = setFile (setFile (worker env pre secret decrypt w).files (TrimSuffix p ".enc")
              (some P)) p none) ∧
    (env.Lawful → ∀ pre p post P, jobs = pre ++ p :: post → decrypt = false →
      (∀ q ∈ pre, p ∉ footprint false q) → w.files p = some P →
      env.readFails p = false → env.writeFault (p ++ ".enc") = none →
      env.removeFails p = false →
      (env.gcm (createKeyHash env secret)).NonceSize * (pre.length + 1) ≤ w.entropy.length →
      (worker env (pre ++ [p]) secret decrypt w).stdout
          = (worker env pre secret decrypt w).stdout ++ [.succeeded p] ∧
        (worker env (pre ++ [p]) secret decrypt w).files p = none ∧
        ∃ blob, (worker env (pre ++ [p]) secret decrypt w).files (p ++ ".enc") = some blob ∧
          Opens (env.gcm (createKeyHash env secret)) blob P) ∧
    (secret ≠ "" → ∀ dir workers, (main env dir secret decrypt workers w).1 = 0) := by
  refine ⟨workerLoop_stdout env _ decrypt jobs w, workerLoop_calls env _ decrypt jobs w,
    ?_, ?_, ?_, ?_⟩
  · intro pre p post hj
    subst hj
    simp only [worker]
    rw [workerLoop_append, workerLoop_cons]
  · intro hl pre p post P _ hd hpre hopen hr hw hrm
    subst hd
    simp only [worker]
    have hk := validKey_createKeyHash env hl secret
    have hfr := workerLoop_frame env (createKeyHash env secret) true p pre w hpre
    rw [← hfr] at hopen
    obtain ⟨s1, s2, _⟩ := decryptFile_step env _ p _ P hr hw hrm hk hopen
    rw [workerLoop_snoc]
    refine ⟨handle_succeeded env _ true _ p ?_, ?_⟩
    · simpa only [codec, if_true] using s1
    · rw [handle_files]
      simpa only [codec, if_true] using s2
  · intro hl pre p post P _ hd hpre hfile hr hw hrm hent
    subst hd
    simp only [worker]
    have hk := validKey_createKeyHash env hl secret
    have hfr := workerLoop_frame env (createKeyHash env secret) false p pre w hpre
    rw [← hfr] at hfile
    have hn : (env.gcm (createKeyHash env secret)).NonceSize
        ≤ (workerLoop env (createKeyHash env secret) false pre w).entropy.length := by
      apply workerLoop_entropy_encrypt
      rw [Nat.mul_succ] at hent
      exact hent
    obtain ⟨s1, s2, _⟩ := encryptFile_step env _ p _ P hr hw hrm hk hn hfile
    rw [workerLoop_snoc]
    refine ⟨handle_succeeded env _ false _ p ?_, ?_, ?_⟩
    · simpa only [codec, Bool.false_eq_true, if_false] using s1
    · rw [handle_files]
      simp only [codec, Bool.false_eq_true, if_false]
      rw [s2, setFile_same]
    · refine ⟨_, ?_, opens_seal env hl _ _ P hk (take_entropy_length _ _ hn)⟩
      rw [handle_files]
      simp only [codec, Bool.false_eq_true, if_false]
      rw [s2, setFile_other _ _ _ _ (append_enc_ne p), setFile_same]
  · intro hs dir workers
    simp only [main, if_neg hs]
    split <;> rfl

theorem c8_file_local_isolation_witness :
    (worker demoEnv ["bad.enc"] "mykey" true mixedWorld).stdout = [.failed "bad.enc" .auth] ∧
      (worker demoEnv (["bad.enc"] ++ ["good.enc"]) "mykey" true mixedWorld).stdout
        = (worker demoEnv ["bad.enc"] "mykey" true mixedWorld).stdout
          ++ [.succeeded "good.enc"] ∧
      (worker demoEnv (["bad.enc"] ++ ["good.enc"]) "mykey" true mixedWorld).files
        = setFile
          (setFile (worker demoEnv ["bad.enc"] "mykey" true mixedWorld).files
            (TrimSuffix "good.enc" ".enc") (some (bytesOf "hello")))
          "good.enc" none :=
  ⟨by decide,
    (c8_file_local_isolation demoEnv ["bad.enc", "good.enc"] "mykey" true mixedWorld).2.2.2.1
      demoEnv_lawful ["bad.enc"] "good.enc" [] (bytesOf "hello") rfl rfl (by decide) (by decide)
      rfl rfl rfl⟩

/-- C9, as amended. A traversal error ends the walk: the producer sends the selected files
it has visited before the first path that cannot be accessed and nothing after it, prints
the error once, and closes the queue. -/
theorem c9_walk_stops_at_error (dir : Entry) (decrypt : Bool) :
    (producer dir decrypt).sent =
        (dir.visits.takeWhile (fun v => !v.isFailure)).filterMap (Visit.selected decrypt) ∧
      (producer dir decrypt).printed =
        (match dir.visits.find? Visit.isFailure with
          | some v => [.accessError v.path (.access v.path)]
          | none => []) ∧
      (producer dir decrypt).closed = true := by
  refine ⟨producer_sent dir decrypt, ?_, ?_⟩
  · rw [producer_eq]
    show (absorb decrypt dir.visits ⟨[], false, []⟩).2.printed = _
    rw [absorb_printed]
    rfl
  · rw [producer_eq]

/-- C9, refuted as stated. In the tree with the entries `a`, which cannot be accessed, and
`b.txt`, a file outside that branch and selected in encrypt mode, the producer reports the
error, closes the queue and has not sent `b.txt`. -/
theorem c9_counterexample :
    "b.txt" ∈ (Entry.dir "." [.unlistable "a", .file "b.txt"]).nonDirs ∧
      selects false "b.txt" = true ∧
      (producer (.dir "." [.unlistable "a", .file "b.txt"]) false).printed
        = [.accessError "a" (.access "a")] ∧
      (producer (.dir "." [.unlistable "a", .file "b.txt"]) false).closed = true ∧
      "b.txt" ∉ (producer (.dir "." [.unlistable "a", .file "b.txt"]) false).sent := by
  decide

/-- C10, as amended. Independence of order. The codec changes no file outside the footprint
of its path. In encrypt mode the footprints of two distinct selected paths are disjoint; in
decrypt mode they are disjoint unless one path is the other followed by `.enc`. When
neither the operating system nor the random source fails, processing distinct selected
paths in any order leaves the same files: in encrypt mode the same names, each with equal
content or with a blob opening to the same plaintext; in decrypt mode, provided no
selected path is another selected path followed by `.enc`, the very same contents. -/
theorem c10_order_independence (env : Env) (hl : env.Lawful) (hf : env.NoFaults)
    (secret : String) (l l' : List String) (hperm : l.Perm l') (hnd : l.Nodup)
    (w w' : World) (hfiles : w.files = w'.files) :
    (∀ d key v p x, x ∉ footprint d p → (codec env key d v p).2.files x = v.files x) ∧
    (∀ p q, selects false p = true → selects false q = true → p ≠ q →
      ∀ x ∈ footprint false p, x ∉ footprint false q) ∧
    (∀ p q, selects true p = true → selects true q = true → p ≠ q →
      p ≠ q ++ ".enc" → q ≠ p ++ ".enc" → ∀ x ∈ footprint true p, x ∉ footprint true q) ∧
    ((∀ p ∈ l, selects false p = true) →
      (env.gcm (createKeyHash env secret)).NonceSize * l.length ≤ w.entropy.length →
      (env.gcm (createKeyHash env secret)).NonceSize * l.length ≤ w'.entropy.length →
      ∀ q, (worker env l secret false w).files q = (worker env l' secret false w').files q ∨
        ∃ b b' P, (worker env l secret false w).files q = some b ∧
          (worker env l' secret false w').files q = some b' ∧
          Opens (env.gcm (createKeyHash env secret)) b P ∧
          Opens (env.gcm (createKeyHash env secret)) b' P) ∧
    ((∀ p ∈ l, selects true p = true) → (∀ p ∈ l, p ++ ".enc" ∉ l) →
      (worker env l secret true w).files = (worker env l' secret true w').files) := by
  have hk := validKey_createKeyHash env hl secret
  have hnd' : l'.Nodup := hperm.nodup_iff.mp hnd
  have hmem : ∀ x, x ∈ l' ↔ x ∈ l := fun x => hperm.mem_iff.symm
  refine ⟨fun d key v p x hx => codec_frame env key d v p x hx, ?_, ?_, ?_, ?_⟩
  · intro p q hp hq hne x hx
    simp only [footprint, Bool.false_eq_true, if_false, List.mem_cons, List.mem_singleton,
      List.not_mem_nil, or_false, not_or] at hx ⊢
    rcases hx with rfl | rfl
    · exact ⟨hne, ne_append_enc_of_selects _ q hp⟩
    · exact ⟨fun h => ne_append_enc_of_selects q p hq h.symm,
        fun h => hne (append_right_cancel _ _ _ h)⟩
  · intro p q hp hq hne h1 h2 x hx
    simp only [footprint, if_true, List.mem_cons, List.mem_singleton,
      List.not_mem_nil, or_false, not_or] at hx ⊢
    rcases hx with rfl | rfl
    · exact ⟨hne, fun h => h2 (eq_append_enc_of_trim q _ hq h)⟩
    · refine ⟨fun h => h1 (eq_append_enc_of_trim p _ hp h.symm), fun h => hne ?_⟩
      rw [eq_append_enc_of_trim p _ hp rfl, eq_append_enc_of_trim q _ hq rfl, h]
  · intro hsel hent hent' q
    have hsel' : ∀ p ∈ l', selects false p = true := fun p hp => hsel p ((hmem p).mp hp)
    rw [hperm.length_eq] at hent'
    obtain ⟨A1, A2, A3⟩ := encLoop_spec env hl hf _ hk l w hnd hsel hent q
    obtain ⟨B1, B2, B3⟩ := encLoop_spec env hl hf _ hk l' w' hnd' hsel' hent' q
    simp only [worker]
    by_cases hq : q ∈ l
    · left
      rw [A1 hq, B1 ((hmem q).mpr hq)]
    · by_cases hqo : ∃ p ∈ l, q = p ++ ".enc"
      · obtain ⟨p, hp, hqe⟩ := hqo
        obtain ⟨A4, A5⟩ := A2 p hp hqe
        obtain ⟨B4, B5⟩ := B2 p ((hmem p).mpr hp) hqe
        rw [← hfiles] at B4 B5
        rcases hfile : w.files p with _ | P
        · left
          rw [A4 hfile, B4 hfile]
        · right
          obtain ⟨b, hb, hbo⟩ := A5 P hfile
          obtain ⟨b', hb', hbo'⟩ := B5 P hfile
          exact ⟨b, b', P, hb, hb', hbo, hbo'⟩
      · left
        have hqo' : ∀ p ∈ l, q ≠ p ++ ".enc" := fun p hp he => hqo ⟨p, hp, he⟩
        rw [A3 hq hqo', B3 (fun h => hq ((hmem q).mp h))
          (fun p hp => hqo' p ((hmem p).mp hp)), hfiles]
  · intro hsel hov
    have hsel' : ∀ p ∈ l', selects true p = true := fun p hp => hsel p ((hmem p).mp hp)
    have hov' : ∀ p ∈ l', p ++ ".enc" ∉ l' :=
      fun p hp h => hov p ((hmem p).mp hp) ((hmem _).mp h)
    funext q
    obtain ⟨A1, A2, A3⟩ := decLoop_spec env hf _ hk l w hnd hsel hov q
    obtain ⟨B1, B2, B3⟩ := decLoop_spec env hf _ hk l' w' hnd' hsel' hov' q
    simp only [worker]
    by_cases hq : q ∈ l
    · rw [A1 hq, B1 ((hmem q).mpr hq), hfiles]
    · by_cases hqo : ∃ p ∈ l, q = TrimSuffix p ".enc"
      · obtain ⟨p, hp, hqe⟩ := hqo
        rw [A2 p hp hqe, B2 p ((hmem p).mpr hp) hqe, hfiles]
      · have hqo' : ∀ p ∈ l, q ≠ TrimSuffix p ".enc" := fun p hp he => hqo ⟨p, hp, he⟩
        rw [A3 hq hqo', B3 (fun h => hq ((hmem q).mp h))
          (fun p hp => hqo' p ((hmem p).mp hp)), hfiles]

theorem c10_order_independence_witness :
    (worker demoEnv ["a.txt", "b.md"] "mykey" false (pairWorld 7)).files "a.txt.enc"
        ≠ (worker demoEnv ["b.md", "a.txt"] "mykey" false (pairWorld 9)).files "a.txt.enc" ∧
    ((worker demoEnv ["a.txt", "b.md"] "mykey" false (pairWorld 7)).files "a.txt.enc"
        = (worker demoEnv ["b.md", "a.txt"] "mykey" false (pairWorld 9)).files "a.txt.enc" ∨
      ∃ b b' P,
        (worker demoEnv ["a.txt", "b.md"] "mykey" false (pairWorld 7)).files "a.txt.enc"
          = some b ∧
        (worker demoEnv ["b.md", "a.txt"] "mykey" false (pairWorld 9)).files "a.txt.enc"
          = some b' ∧
        Opens (demoEnv.gcm (createKeyHash demoEnv "mykey")) b P ∧
        Opens (demoEnv.gcm (createKeyHash demoEnv "mykey")) b' P) :=
  ⟨by decide,
    (c10_order_independence demoEnv demoEnv_lawful demoEnv_noFaults "mykey" ["a.txt", "b.md"]
      ["b.md", "a.txt"] (List.Perm.swap _ _ _) (by decide) (pairWorld 7) (pairWorld 9)
      rfl).2.2.2.1 (by decide) (by decide) (by decide) "a.txt.enc"⟩

/-- C10, refuted as stated. In decrypt mode `a.enc` and `a.enc.enc` are two distinct
selected paths, and `a.enc` is in the footprint of both: it is the input of the one and the
output of the other. The order matters: handled first, `a.enc` leaves its own plaintext in
`a` and the output of `a.enc.enc` stays; handled second, it has been overwritten, leaves the
plaintext of `a.enc.enc` in `a` and is gone. -/
theorem c10_counterexample :
    selects true "a.enc" = true ∧ selects true "a.enc.enc" = true ∧
      "a.enc" ∈ footprint true "a.enc" ∧ "a.enc" ∈ footprint true "a.enc.enc" ∧
      (worker demoEnv ["a.enc", "a.enc.enc"] "mykey" true nestedWorld).files "a"
        = some (bytesOf "one") ∧
      (worker demoEnv ["a.enc.enc", "a.enc"] "mykey" true nestedWorld).files "a"
        = some (bytesOf "two") ∧
      (worker demoEnv ["a.enc", "a.enc.enc"] "mykey" true nestedWorld).files "a.enc"
        = some (demoBlob (bytesOf "two")) ∧
      (worker demoEnv ["a.enc.enc", "a.enc"] "mykey" true nestedWorld).files "a.enc" = none := by
  decide

end CipherSync
